import Mathlib

/-!
Verification development for the JustPlug plugin manager.

The definitions below are a shallow embedding of the C++ sources:
  - the dependency graph and its topological sort (graph.cpp),
  - the plugin registry, dependency checking, load and unload
    orchestration (pluginmanagerprivate.cpp / pluginmanager part),
  - metadata parsing (PlugMgrPrivate::parseMetadata),
  - discovery (PluginManager::searchForPlugins).

Machine state (the std map of plugin records, the locations list, the
stored load order) is passed explicitly.  Fallible or possibly
non-terminating code paths (unbounded recursion in the dependency
check, out-of-range vector indexing, dereferencing a null shared
pointer obtained from operator[] on a missing key) are modelled with
Option: a result of none stands for a call that does not return
normally.  Recursive functions carry an explicit fuel argument; the
theorems either supply enough fuel or quantify over it.
-/

/-! ## Return codes (struct ReturnCode in pluginmanager) -/

inductive RC where
  | success
  | unknownError
  | searchNothingFound
  | searchCannotParseMetadata
  | searchNameAlreadyExists
  | searchListFilesError
  | loadDependencyBadVersion
  | loadDependencyNotFound
  | loadDependencyCycle
  | unloadNotAll
deriving DecidableEq, Repr

/-- The implicit bool conversion of ReturnCode: SUCCESS is true,
everything else false. -/
def RC.isSuccess : RC → Bool
  | RC.success => true
  | _ => false

/-! ## Tri-state dependency flag (tribool of the PluginRecord) -/

inductive TriBool where
  | indet
  | yes
  | no
deriving DecidableEq, Repr

/-! ## Version

Modelled from the spec: the Version class lives in the bundled
version/version.h header which is not part of src/.  Per section 4.1 of
the spec it parses MAJOR.MINOR.PATCH strings (extra suffixes ignored)
and compatible(required) holds iff the major components are equal and
(minor, patch) is lexicographically at least the required pair. -/

structure Version where
  major : Nat
  minor : Nat
  patch : Nat
deriving DecidableEq, Repr

/-- Modelled from the spec: numeric value of one dot-separated component,
ignoring any non-digit suffix such as a prerelease tag. -/
def versionComponent (cs : List Char) : Nat :=
  (cs.takeWhile Char.isDigit).foldl (fun acc c => acc * 10 + (c.toNat - 48)) 0

/-- Modelled from the spec: split the character list at the dots. -/
def splitDots : List Char → List Char → List (List Char)
  | [], acc => [acc.reverse]
  | c :: rest, acc =>
    if c = Char.ofNat 46 then acc.reverse :: splitDots rest []
    else splitDots rest (c :: acc)

/-- Modelled from the spec: parse a MAJOR.MINOR.PATCH string; extra
suffixes permitted and ignored. -/
def Version.fromString (s : String) : Version :=
  match splitDots s.data [] with
  | ma :: mi :: pa :: _ => ⟨versionComponent ma, versionComponent mi, versionComponent pa⟩
  | [ma, mi] => ⟨versionComponent ma, versionComponent mi, 0⟩
  | [ma] => ⟨versionComponent ma, 0, 0⟩
  | [] => ⟨0, 0, 0⟩

/-- Modelled from the spec (section 4.1): same major, and at least the
required (minor, patch) lexicographically. -/
def Version.compatible (v req : Version) : Bool :=
  v.major == req.major &&
    (v.minor > req.minor || (v.minor == req.minor && v.patch >= req.patch))

/-- Compatibility on version strings, as the code writes
Version(s).compatible(t). -/
def versionStringCompatible (s t : String) : Bool :=
  (Version.fromString s).compatible (Version.fromString t)

example : versionStringCompatible "1.2.3" "1.2.3" = true := by decide
example : versionStringCompatible "1.2.3" "1.2.4" = false := by decide
example : versionStringCompatible "1.2.3" "1.1.9" = true := by decide
example : versionStringCompatible "1.2.3" "2.0.0" = false := by decide

/-- The host plugin API version (JP_PLUGIN_API; the spec states it is
currently 1.0.0). -/
def JP_PLUGIN_API : String := "1.0.0"

/-! ## Dependency graph (graph.cpp / graph.h)

A node carries a plugin name and the list of parent node indices.  The
C++ code stores the indices as int and initialises graphId to -1, so
the parent lists here are lists of Int; a negative or out-of-range
index dereferences outside the node vector, which the model maps to
none. -/

inductive Mark where
  | unmarked
  | temp
  | permanent
deriving DecidableEq, Repr

structure GNode where
  name : String
  parentNodes : List Int
deriving DecidableEq, Repr

/-- Flag state of the node vector: the mark of each node index. -/
abbrev Flags := Nat → Mark

def setFlag (flags : Flags) (i : Nat) (m : Mark) : Flags :=
  fun j => if j = i then m else flags j

/-- The parent loop inside Graph::visitNode: visit each parent index in
order with the given visiting function, stopping at the first failure.
A negative or out-of-range parent index is an out-of-range vector
access in the C++ code, modelled as none. -/
def runParents (visit : Nat → Flags → List String → Option (Flags × List String × Bool))
    (n : Nat) : List Int → Flags → List String → Option (Flags × List String × Bool)
  | [], flags, out => some (flags, out, true)
  | p :: ps, flags, out =>
    if 0 ≤ p ∧ p.toNat < n then
      match visit p.toNat flags out with
      | none => none
      | some (flags1, out1, false) => some (flags1, out1, false)
      | some (flags1, out1, true) => runParents visit n ps flags1 out1
    else
      none

/-- Graph::visitNode.  Returns the updated flags, the extended output
list and true, or false when a TEMP node is visited (a cycle).  none
models fuel exhaustion (the C++ recursion is unbounded) or an invalid
node index.  The fuel bounds the nesting depth of node visits. -/
def visitNode (nodes : List GNode) : Nat → Nat → Flags → List String →
    Option (Flags × List String × Bool)
  | 0, _, _, _ => none
  | fuel + 1, i, flags, out =>
    match nodes.get? i with
    | none => none
    | some node =>
      match flags i with
      | Mark.permanent => some (flags, out, true)
      | Mark.temp => some (flags, out, false)
      | Mark.unmarked =>
        match runParents (fun j fl o => visitNode nodes fuel j fl o) nodes.length
            node.parentNodes (setFlag flags i Mark.temp) out with
        | none => none
        | some (flags2, out2, false) => some (flags2, out2, false)
        | some (flags2, out2, true) =>
          some (setFlag flags2 i Mark.permanent, out2 ++ [node.name], true)

/-- The loop of Graph::topologicalSort: scan the node vector in order
and visit every still-unmarked node. -/
def topoSortAux (nodes : List GNode) (fuel : Nat) :
    List Nat → Flags → List String → Option (List String × Bool)
  | [], _, out => some (out, false)
  | i :: rest, flags, out =>
    match flags i with
    | Mark.unmarked =>
      match visitNode nodes fuel i flags out with
      | none => none
      | some (_, _, false) => some ([], true)
      | some (flags1, out1, true) => topoSortAux nodes fuel rest flags1 out1
    | _ => topoSortAux nodes fuel rest flags out

/-- Graph::topologicalSort.  All flags start UNMARKED; on a cycle the
error flag is set and the empty list returned.  The fuel bounds the
depth of the visitNode recursion. -/
def topologicalSort (nodes : List GNode) (fuel : Nat) : Option (List String × Bool) :=
  topoSortAux nodes fuel (List.range nodes.length) (fun _ => Mark.unmarked) []

example :
    topologicalSort [⟨"A", []⟩, ⟨"B", [0]⟩] 3 = some (["A", "B"], false) := by
  decide

example :
    topologicalSort [⟨"A", [1]⟩, ⟨"B", [0]⟩] 3 = some ([], true) := by
  decide

/-! ## Plugin records and the registry (plugin.h / pluginmanagerprivate.h)

PluginInfoStd is the parsed metadata.  A PluginRecord models one entry
of the std map from plugin name to plugin pointer: the shared library
state, the parsed info, the memoized tri-state dependency flag, the
graph id of the current load pass, the optional live instance (a null
IPlugin pointer is none) and the main-plugin role flag.  Instances are
identified by abstract numeric ids.  The registry models the std map
as an association list with distinct keys; iteration order is the list
order. -/

structure DependencyS where
  name : String
  version : String
deriving DecidableEq, Repr

structure PluginInfoStd where
  name : String
  prettyName : String
  version : String
  author : String
  url : String
  license : String
  copyright : String
  dependencies : List DependencyS
deriving DecidableEq, Repr

/-- The default-constructed PluginInfoStd (the invalid record). -/
def PluginInfoStd.empty : PluginInfoStd :=
  ⟨"", "", "", "", "", "", "", []⟩

structure PluginRecord where
  path : String
  libLoaded : Bool
  info : PluginInfoStd
  dependenciesExists : TriBool
  graphId : Int
  iplugin : Option Nat
  isMainPlugin : Bool
deriving DecidableEq, Repr

abbrev Registry := List (String × PluginRecord)

/-- map find: the record stored under a key, if any. -/
def lookupReg : Registry → String → Option PluginRecord
  | [], _ => none
  | (k, r) :: rest, key => if k = key then some r else lookupReg rest key

/-- map count of a key. -/
def countKey (reg : Registry) (key : String) : Nat :=
  (reg.filter (fun e => e.1 == key)).length

/-- Update the record stored under a key in place (no insertion). -/
def mapAt (reg : Registry) (key : String) (f : PluginRecord → PluginRecord) : Registry :=
  reg.map (fun e => if e.1 = key then (e.1, f e.2) else e)

/-- map erase of a key. -/
def eraseReg (reg : Registry) (key : String) : Registry :=
  reg.filter (fun e => !(e.1 == key))

/-- map insertion of a fresh key. -/
def insertReg (reg : Registry) (key : String) (r : PluginRecord) : Registry :=
  reg ++ [(key, r)]

/-- The std map invariant: keys are pairwise distinct. -/
def keysNodup (reg : Registry) : Prop :=
  (reg.map Prod.fst).Nodup

/-! ## Dependency checking (PlugMgrPrivate::checkDependencies)

The C++ function takes the plugin pointer stored in the map and
mutates the tri-state flag through it; the model addresses records by
their map key and threads the registry.  The recursion into the
dependencies of a dependency is unbounded in C++ (there is no cycle
guard, so cyclic dependency chains never return); the model charges
one unit of fuel per nested call and returns none when it runs out.
The callback argument is not modelled: it only mirrors the returned
code.  -/

/-- The loop over the declared dependencies of the record stored at
selfKey, parameterized by the function used for the recursive check of
a dependency. -/
def checkDepLoop (check : Registry → String → Option (Registry × RC)) (selfKey : String) :
    Registry → List DependencyS → Option (Registry × RC)
  | reg, [] =>
    some (mapAt reg selfKey (fun r => { r with dependenciesExists := TriBool.yes }), RC.success)
  | reg, dep :: rest =>
    match lookupReg reg dep.name with
    | none =>
      some (mapAt reg selfKey (fun r => { r with dependenciesExists := TriBool.no }),
        RC.loadDependencyNotFound)
    | some depRec =>
      if versionStringCompatible depRec.info.version dep.version then
        match check reg dep.name with
        | none => none
        | some (reg1, rc) =>
          if rc.isSuccess then checkDepLoop check selfKey reg1 rest else some (reg1, rc)
      else
        some (mapAt reg selfKey (fun r => { r with dependenciesExists := TriBool.no }),
          RC.loadDependencyBadVersion)

/-- PlugMgrPrivate::checkDependencies.  When the tri-state flag is
already determined the function returns at once: SUCCESS for yes, and
for no it recomputes a failure code from whether the registry still
has a record under the metadata name of this very plugin.  Otherwise
it scans the declared dependencies.  none models fuel exhaustion (the
C++ recursion is unbounded) or a call on a key that is not in the map
(the C++ caller always passes a record of the map). -/
def checkDependencies : Nat → Registry → String → Option (Registry × RC)
  | 0, _, _ => none
  | fuel + 1, reg, key =>
    match lookupReg reg key with
    | none => none
    | some rec =>
      match rec.dependenciesExists with
      | TriBool.yes => some (reg, RC.success)
      | TriBool.no =>
        some (reg, if countKey reg rec.info.name = 0 then RC.loadDependencyNotFound
          else RC.loadDependencyBadVersion)
      | TriBool.indet =>
        checkDepLoop (fun r k => checkDependencies fuel r k) key reg rec.info.dependencies

/-! ## Loaded-state query and main-plugin dispatch -/

/-- PluginManager::isPluginLoaded: the plugin is known, its library
handle is loaded and its instance pointer is not null. -/
def isPluginLoaded (reg : Registry) (name : String) : Bool :=
  match lookupReg reg name with
  | none => false
  | some r => r.libLoaded && r.iplugin.isSome

/-- PlugMgrPrivate::getNonDepPlugin.  The outer none models the null
dereference that happens in C++ when the sender key is not in the map
(operator[] inserts a null plugin pointer which is then dereferenced);
the inner option is the returned IPlugin pointer, none being null. -/
def getNonDepPlugin (reg : Registry) (sender pluginName : String) : Option (Option Nat) :=
  match lookupReg reg sender with
  | none => none
  | some srec =>
    if srec.isMainPlugin then
      if isPluginLoaded reg pluginName then
        some ((lookupReg reg pluginName).bind (fun r => r.iplugin))
      else some none
    else some none

/-! ## Metadata parsing (PlugMgrPrivate::parseMetadata)

The jp_metadata symbol is a NUL-terminated JSON text parsed with the
bundled nlohmann parser.  The textual parser is third-party, so the
byte buffer is modelled as an optional JSON tree: none when the text
is not syntactically valid JSON (json parse throws).  The schema walk
of parseMetadata is modelled exactly: every at() or get() that throws
in C++ is an error here, and any error yields the default-constructed
(invalid) PluginInfoStd. -/

inductive Json where
  | null
  | str (s : String)
  | num (n : Int)
  | bool (b : Bool)
  | arr (elems : List Json)
  | obj (fields : List (String × Json))

/-- json at(key): throws unless the value is an object with the key. -/
def Json.atKey : Json → String → Except Unit Json
  | Json.obj fields, key =>
    match fields.find? (fun f => f.1 == key) with
    | some f => Except.ok f.2
    | none => Except.error ()
  | _, _ => Except.error ()

/-- json get of std string: throws unless the value is a string. -/
def Json.asString : Json → Except Unit String
  | Json.str s => Except.ok s
  | _ => Except.error ()

/-- json iteration over an array value. -/
def Json.asArr : Json → Except Unit (List Json)
  | Json.arr xs => Except.ok xs
  | _ => Except.error ()

def Json.getStringAt (j : Json) (key : String) : Except Unit String :=
  (j.atKey key).bind Json.asString

/-- One entry of the dependencies array. -/
def depOfJson (j : Json) : Except Unit DependencyS := do
  let n ← j.getStringAt "name"
  let v ← j.getStringAt "version"
  Except.ok ⟨n, v⟩

/-- The body of the try block of parseMetadata: check the api version
first, then read every field.  When the api version is incompatible,
control falls through to the default return, modelled by returning the
invalid record without an exception. -/
def extractMetadata (tree : Json) : Except Unit PluginInfoStd := do
  let api ← tree.getStringAt "api"
  if versionStringCompatible api JP_PLUGIN_API then
    let name ← tree.getStringAt "name"
    let prettyName ← tree.getStringAt "prettyName"
    let version ← tree.getStringAt "version"
    let author ← tree.getStringAt "author"
    let url ← tree.getStringAt "url"
    let license ← tree.getStringAt "license"
    let copyright ← tree.getStringAt "copyright"
    let depsJson ← (tree.atKey "dependencies").bind Json.asArr
    let deps ← depsJson.mapM depOfJson
    Except.ok ⟨name, prettyName, version, author, url, license, copyright, deps⟩
  else
    Except.ok PluginInfoStd.empty

/-- PlugMgrPrivate::parseMetadata: any exception, and the incompatible
api fall-through, give the default-constructed invalid record. -/
def parseMetadata (buf : Option Json) : PluginInfoStd :=
  match buf with
  | none => PluginInfoStd.empty
  | some tree =>
    match extractMetadata tree with
    | Except.ok info => info
    | Except.error _ => PluginInfoStd.empty

/-- The metadata buffer is one the claim calls invalid: not valid
JSON, failing the required schema, or carrying an api version that is
not compatible with JP_PLUGIN_API. -/
def metadataInvalid (buf : Option Json) : Prop :=
  match buf with
  | none => True
  | some tree =>
    extractMetadata tree = Except.error () ∨
      ∃ api, tree.getStringAt "api" = Except.ok api ∧
        versionStringCompatible api JP_PLUGIN_API = false

/-! ## Discovery (PluginManager::searchForPlugins)

A candidate is one file of the directory listing: whether the shared
library loads, whether it has the three jp symbols, and the values of
its jp_name and jp_metadata symbols.  The callback invocations are
collected as events. -/

structure Candidate where
  path : String
  loadable : Bool
  hasJpSymbols : Bool
  jpName : String
  metadata : Option Json

inductive SEvent where
  | nameAlreadyExists (path : String)
  | cannotParseMetadata (path : String)
  | listFilesError
deriving DecidableEq, Repr

/-- The record built for an admitted candidate: the just-loaded library
handle stays open, there is no instance yet, the tri-state flag is
indeterminate and the record is not the main plugin. -/
def newRecord (path : String) (info : PluginInfoStd) : PluginRecord :=
  { path := path, libLoaded := true, info := info, dependenciesExists := TriBool.indet,
    graphId := -1, iplugin := none, isMainPlugin := false }

/-- The body of the candidate loop of searchForPlugins. -/
def processCandidate (st : Registry × Bool) (c : Candidate) : (Registry × Bool) × List SEvent :=
  if c.loadable && c.hasJpSymbols then
    if countKey st.1 c.jpName = 1 then
      (st, [SEvent.nameAlreadyExists c.path])
    else
      let info := parseMetadata c.metadata
      if info.name = "" then
        (st, [SEvent.cannotParseMetadata c.path])
      else
        ((insertReg st.1 c.jpName (newRecord c.path info), true), [])
  else
    (st, [])

def searchLoop : Registry × Bool → List Candidate → (Registry × Bool) × List SEvent
  | st, [] => (st, [])
  | st, c :: rest =>
    let r1 := processCandidate st c
    let r2 := searchLoop r1.1 rest
    (r2.1, r1.2 ++ r2.2)

/-- PluginManager::searchForPlugins over one directory.  listError is
whether listLibrariesInDir reported a failure; candidates carries the
files it still produced. -/
def searchForPlugins (reg : Registry) (locations : List String) (dir : String)
    (candidates : List Candidate) (listError : Bool) :
    Registry × List String × RC × List SEvent :=
  if listError && candidates.isEmpty then
    (reg, locations, RC.searchListFilesError, [SEvent.listFilesError])
  else
    let evs0 : List SEvent := if listError then [SEvent.listFilesError] else []
    let r := searchLoop (reg, false) candidates
    if r.1.2 then
      (r.1.1, if locations.contains dir then locations else locations ++ [dir],
        RC.success, evs0 ++ r.2)
    else
      (r.1.1, locations, RC.searchNothingFound, evs0 ++ r.2)

/-! ## Targeted load (PluginManager::loadPlugin and PlugMgrPrivate::loadPlugin)

PlugMgrPrivate::loadPlugin resolves the jp_createPlugin factory,
gathers the instance pointers of the declared dependencies, invokes
the factory and calls loaded() on the new instance.  The dependency
pointer array handed to the factory and the factory code itself are
plugin-side and not observable by any claim, so the model records only
the manager-visible effect: the record now holds a fresh instance, and
loaded() was invoked on it (the returned trace of names). -/

def loadPluginRecord (reg : Registry) (key : String) (freshId : Nat) :
    Registry × List String :=
  (mapAt reg key (fun r => { r with iplugin := some freshId }), [key])

/-- PluginManager::loadPlugin (by name). -/
def loadPluginByName (fuel : Nat) (reg : Registry) (name : String) (freshId : Nat) :
    Option (Registry × Bool × List String) :=
  match lookupReg reg name with
  | none => some (reg, false, [])
  | some rec =>
    if rec.libLoaded then
      some (reg, true, [])
    else
      match checkDependencies fuel reg name with
      | none => none
      | some (reg1, rc) =>
        if rc.isSuccess then
          let p := loadPluginRecord reg1 name freshId
          some (p.1, true, p.2)
        else
          some (reg1, false, [])

/-! ## Unloading (PlugMgrPrivate::unloadPluginsInOrder, unloadPlugin)

The manager state bundles the registry, the locations list, the stored
load order and the main-plugin name.  PlugMgrPrivate::unloadPlugin
fires aboutToBeUnloaded() when the record holds an instance, resets
the instance and unloads the library handle; the shared-library
wrapper is external and its unload is modelled as succeeding.  The
trace lists the names whose instance received aboutToBeUnloaded, in
order. -/

structure MgrState where
  pluginsMap : Registry
  locations : List String
  loadOrderList : List String
  mainPluginName : String
deriving DecidableEq, Repr

/-- Whether the record under a key currently holds a live instance. -/
def instancePresent (reg : Registry) (name : String) : Bool :=
  match lookupReg reg name with
  | none => false
  | some r => r.iplugin.isSome

/-- The first loop of unloadPluginsInOrder: walk the stored load order
in reverse (the argument is already reversed), unload each record and
erase it from the map.  A name that is missing from the map makes the
C++ operator[] insert a null plugin pointer which unloadPlugin then
dereferences: that call does not return, modelled as none. -/
def unloadPhase1 : List String → Registry → Option (Registry × List String)
  | [], reg => some (reg, [])
  | n :: rest, reg =>
    match lookupReg reg n with
    | none => none
    | some rec =>
      match unloadPhase1 rest (eraseReg reg n) with
      | none => none
      | some (reg2, tr) =>
        some (reg2, (if rec.iplugin.isSome then [n] else []) ++ tr)

/-- The second loop of unloadPluginsInOrder: drain the remaining
records in iteration order. -/
def unloadPhase2 : Registry → List String
  | [] => []
  | (n, rec) :: rest => (if rec.iplugin.isSome then [n] else []) ++ unloadPhase2 rest

/-- PlugMgrPrivate::unloadPluginsInOrder: both loops, then clear the
locations list.  The stored load order is not touched. -/
def unloadPluginsInOrder (st : MgrState) : Option (MgrState × List String) :=
  match unloadPhase1 st.loadOrderList.reverse st.pluginsMap with
  | none => none
  | some (reg1, tr1) =>
    some ({ pluginsMap := [], locations := [],
            loadOrderList := st.loadOrderList, mainPluginName := st.mainPluginName },
      tr1 ++ unloadPhase2 reg1)

/-! ## Bulk load (PluginManager::loadPlugins)

Phase 1 walks the map: reset graphId, run the dependency check, abort
on failure unless tryToContinue, and append a graph node for every
record whose tri-state flag is yes.  Phase 2 fills the parent list of
each node with the graphIds of the declared dependencies of its
record.  Then the graph is sorted, the resulting name list is stored
as the load order, the plugins are constructed in that order and the
main plugin, when registered, receives mainPluginExec. -/

/-- Phase 1 of loadPlugins over the remaining map keys.  The third
component of the result is the early-abort code when tryToContinue is
false and a check failed. -/
def loadPhase1 (fuel : Nat) (ttc : Bool) :
    Registry → List String → List GNode → Option (Registry × List GNode × Option RC)
  | reg, [], nodes => some (reg, nodes, none)
  | reg, k :: rest, nodes =>
    let reg0 := mapAt reg k (fun r => { r with graphId := -1 })
    match checkDependencies fuel reg0 k with
    | none => none
    | some (reg1, rc) =>
      if !ttc && !rc.isSuccess then
        some (reg1, nodes, some rc)
      else
        match lookupReg reg1 k with
        | none => none
        | some rec =>
          if rec.dependenciesExists = TriBool.yes then
            loadPhase1 fuel ttc
              (mapAt reg1 k (fun r => { r with graphId := Int.ofNat nodes.length }))
              rest (nodes ++ [⟨k, []⟩])
          else
            loadPhase1 fuel ttc reg1 rest nodes

/-- The graphIds of the declared dependencies of one record, in order;
none when a dependency name has no record (the C++ operator[] then
dereferences a null plugin pointer). -/
def fillParents (reg : Registry) : List DependencyS → Option (List Int)
  | [] => some []
  | d :: ds =>
    match lookupReg reg d.name with
    | none => none
    | some drec => (fillParents reg ds).map (fun ps => drec.graphId :: ps)

/-- Phase 2 of loadPlugins: push the dependency graphIds onto the
parent list of the node of every record taking part in this pass. -/
def loadPhase2 (reg : Registry) : List String → List GNode → Option (List GNode)
  | [], nodes => some nodes
  | k :: rest, nodes =>
    match lookupReg reg k with
    | none => none
    | some rec =>
      if rec.graphId = -1 then
        loadPhase2 reg rest nodes
      else if 0 ≤ rec.graphId ∧ rec.graphId.toNat < nodes.length then
        match fillParents reg rec.info.dependencies with
        | none => none
        | some ps =>
          match nodes.get? rec.graphId.toNat with
          | none => none
          | some node =>
            loadPhase2 reg rest
              (nodes.set rec.graphId.toNat { node with parentNodes := node.parentNodes ++ ps })
      else
        none

/-- loadPlugins up to and including the storage of the computed load
order.  The Bool of the result is whether the topological sort ran and
succeeded; on early abort or on a cycle it is false and the code of
the result is the returned error. -/
def loadPluginsOrder (fuel : Nat) (ttc : Bool) (st : MgrState) :
    Option (MgrState × RC × Bool) :=
  let keys := st.pluginsMap.map Prod.fst
  match loadPhase1 fuel ttc st.pluginsMap keys [] with
  | none => none
  | some (reg1, _, some rc) => some ({ st with pluginsMap := reg1 }, rc, false)
  | some (reg1, nodes, none) =>
    match loadPhase2 reg1 keys nodes with
    | none => none
    | some nodes2 =>
      match topologicalSort nodes2 (nodes2.length + 1) with
      | none => none
      | some (ord, err) =>
        if err then
          some ({ st with pluginsMap := reg1, loadOrderList := ord },
            RC.loadDependencyCycle, false)
        else
          some ({ st with pluginsMap := reg1, loadOrderList := ord }, RC.success, true)

/-- PlugMgrPrivate::loadPluginsInOrder: construct every plugin of the
load order (map at throws when the name is missing, modelled none) and
collect the loaded() trace. -/
def loadInOrder : Registry → List String → Nat → Option (Registry × List String)
  | reg, [], _ => some (reg, [])
  | reg, n :: rest, fresh =>
    match lookupReg reg n with
    | none => none
    | some _ =>
      let p := loadPluginRecord reg n fresh
      match loadInOrder p.1 rest (fresh + 1) with
      | none => none
      | some (reg2, tr) => some (reg2, p.2 ++ tr)

/-- PluginManager::loadPlugins in full: order computation, construction
in order, then mainPluginExec of the registered main plugin.  The
trace is the sequence of names whose loaded() ran. -/
def loadPlugins (fuel : Nat) (ttc : Bool) (st : MgrState) :
    Option (MgrState × RC × List String) :=
  match loadPluginsOrder fuel ttc st with
  | none => none
  | some (st1, rc, false) => some (st1, rc, [])
  | some (st1, _, true) =>
    match loadInOrder st1.pluginsMap st1.loadOrderList 0 with
    | none => none
    | some (reg2, tr) =>
      if st1.mainPluginName = "" then
        some ({ st1 with pluginsMap := reg2 }, RC.success, tr)
      else
        match lookupReg reg2 st1.mainPluginName with
        | none => none
        | some mrec =>
          if mrec.iplugin.isSome then
            some ({ st1 with pluginsMap := reg2 }, RC.success, tr)
          else
            none

/-! ## Graph lemmas

Monotonicity of the three-colour marks along a visit, adequacy of the
fuel bound, and the correctness invariant of the DFS output. -/

/-- Marks only move forward along any visit: permanent and temp marks
persist, and a mark that ends unmarked was unmarked before. -/
def FlagsMono (fl fl2 : Flags) : Prop :=
  (∀ j, fl j = Mark.permanent → fl2 j = Mark.permanent) ∧
  (∀ j, fl j = Mark.temp → fl2 j = Mark.temp) ∧
  (∀ j, fl2 j = Mark.unmarked → fl j = Mark.unmarked)

theorem flagsMono_refl (fl : Flags) : FlagsMono fl fl :=
  ⟨fun _ h => h, fun _ h => h, fun _ h => h⟩

theorem flagsMono_trans {a b c : Flags} (h1 : FlagsMono a b) (h2 : FlagsMono b c) :
    FlagsMono a c :=
  ⟨fun j h => h2.1 j (h1.1 j h), fun j h => h2.2.1 j (h1.2.1 j h),
   fun j h => h1.2.2 j (h2.2.2 j h)⟩

theorem flagsMono_setTemp {fl : Flags} {i : Nat} (hu : fl i = Mark.unmarked) :
    FlagsMono fl (setFlag fl i Mark.temp) := by
  refine ⟨fun j h => ?_, fun j h => ?_, fun j h => ?_⟩ <;> unfold setFlag at *
  · by_cases hji : j = i
    · rw [hji] at h; rw [hu] at h; exact absurd h (by simp)
    · simp [hji, h]
  · by_cases hji : j = i
    · rw [hji] at h; rw [hu] at h; exact absurd h (by simp)
    · simp [hji, h]
  · by_cases hji : j = i
    · simp [hji] at h
    · simpa [hji] using h

theorem flagsMono_finish {fl fl2 : Flags} {i : Nat} (hu : fl i = Mark.unmarked)
    (h : FlagsMono fl fl2) : FlagsMono fl (setFlag fl2 i Mark.permanent) := by
  refine ⟨fun j hj => ?_, fun j hj => ?_, fun j hj => ?_⟩ <;> unfold setFlag at *
  · by_cases hji : j = i
    · simp [hji]
    · simp [hji]; exact h.1 j hj
  · by_cases hji : j = i
    · rw [hji] at hj; rw [hu] at hj; exact absurd hj (by simp)
    · simp [hji]; exact h.2.1 j hj
  · by_cases hji : j = i
    · simp [hji] at hj
    · simp [hji] at hj; exact h.2.2 j hj

theorem runParents_mono {visit : Nat → Flags → List String → Option (Flags × List String × Bool)}
    {n : Nat} (hv : ∀ j fl o r, visit j fl o = some r → FlagsMono fl r.1) :
    ∀ ps fl o r, runParents visit n ps fl o = some r → FlagsMono fl r.1 := by
  intro ps
  induction ps with
  | nil =>
    intro fl o r h
    simp only [runParents] at h
    cases h
    exact flagsMono_refl fl
  | cons p ps ih =>
    intro fl o r h
    simp only [runParents] at h
    split at h
    · cases hvis : visit p.toNat fl o with
      | none => rw [hvis] at h; cases h
      | some r1 =>
        rw [hvis] at h
        obtain ⟨fl1, o1, b1⟩ := r1
        have hm1 : FlagsMono fl fl1 := hv _ _ _ _ hvis
        cases b1 with
        | false => cases h; exact hm1
        | true => exact flagsMono_trans hm1 (ih _ _ _ h)
    · cases h

theorem visitNode_mono (nodes : List GNode) :
    ∀ fuel i fl o r, visitNode nodes fuel i fl o = some r → FlagsMono fl r.1 := by
  intro fuel
  induction fuel with
  | zero => intro i fl o r h; simp [visitNode] at h
  | succ fuel ih =>
    intro i fl o r h
    simp only [visitNode] at h
    split at h
    · cases h
    · split at h
      · cases h; exact flagsMono_refl fl
      · cases h; exact flagsMono_refl fl
      · rename_i hfl
        split at h
        · cases h
        · rename_i fl2 o2 hrp
          cases h
          exact flagsMono_trans (flagsMono_setTemp hfl)
            (runParents_mono (fun j fl o r hh => ih j fl o r hh) _ _ _ _ hrp)
        · rename_i fl2 o2 hrp
          cases h
          exact flagsMono_finish hfl
            (flagsMono_trans (flagsMono_setTemp hfl)
              (runParents_mono (fun j fl o r hh => ih j fl o r hh) _ _ _ _ hrp))

/-- Number of still-unmarked node indices. -/
def unmarkedCount (n : Nat) (fl : Flags) : Nat :=
  (List.range n).countP (fun j => fl j == Mark.unmarked)

theorem unmarkedCount_le_of_mono {n : Nat} {fl fl2 : Flags} (h : FlagsMono fl fl2) :
    unmarkedCount n fl2 ≤ unmarkedCount n fl := by
  refine List.countP_mono_left (fun j _ hj => ?_)
  have := h.2.2 j (by simpa using hj)
  simpa using this

theorem countP_setTemp_lt {fl : Flags} {i : Nat} (hu : fl i = Mark.unmarked) :
    ∀ l : List Nat, l.Nodup → i ∈ l →
      l.countP (fun j => setFlag fl i Mark.temp j == Mark.unmarked) <
        l.countP (fun j => fl j == Mark.unmarked) := by
  intro l
  induction l with
  | nil => intro _ hmem; cases hmem
  | cons a l ih =>
    intro hnd hmem
    rw [List.countP_cons, List.countP_cons]
    rcases List.mem_cons.mp hmem with ha | ha
    · subst ha
      have htail : l.countP (fun j => setFlag fl i Mark.temp j == Mark.unmarked) =
          l.countP (fun j => fl j == Mark.unmarked) := by
        refine List.countP_congr (fun j hj => ?_)
        have hne : j ≠ i := fun he => (List.nodup_cons.mp hnd).1 (he ▸ hj)
        simp [setFlag, hne]
      rw [htail]
      simp [setFlag, hu]
    · have hne : a ≠ i := fun he => (List.nodup_cons.mp hnd).1 (he ▸ ha)
      have hhead : (setFlag fl i Mark.temp a == Mark.unmarked) = (fl a == Mark.unmarked) := by
        simp [setFlag, hne]
      rw [hhead]
      have := ih (List.nodup_cons.mp hnd).2 ha
      omega

theorem unmarkedCount_setTemp_lt {n : Nat} {fl : Flags} {i : Nat}
    (hi : i < n) (hu : fl i = Mark.unmarked) :
    unmarkedCount n (setFlag fl i Mark.temp) < unmarkedCount n fl :=
  countP_setTemp_lt hu _ (List.nodup_range _) (List.mem_range.mpr hi)

/-- The wellformedness precondition of a node list: every parent index
points into the list.  loadPlugins only builds such lists when it does
not crash. -/
def WFNodes (nodes : List GNode) : Prop :=
  ∀ node ∈ nodes, ∀ p ∈ node.parentNodes, 0 ≤ p ∧ p.toNat < nodes.length

instance (nodes : List GNode) : Decidable (WFNodes nodes) := by
  unfold WFNodes; infer_instance

theorem runParents_total (nodes : List GNode) (F : Nat)
    (visit : Nat → Flags → List String → Option (Flags × List String × Bool))
    (hv : ∀ j fl o, j < nodes.length → unmarkedCount nodes.length fl < F →
      visit j fl o ≠ none)
    (hm : ∀ j fl o r, visit j fl o = some r → FlagsMono fl r.1) :
    ∀ ps fl o, (∀ p ∈ ps, 0 ≤ p ∧ p.toNat < nodes.length) →
      unmarkedCount nodes.length fl < F →
      runParents visit nodes.length ps fl o ≠ none := by
  intro ps
  induction ps with
  | nil => intro fl o _ _ h; simp [runParents] at h
  | cons p ps ih =>
    intro fl o hps hcnt h
    simp only [runParents] at h
    rw [if_pos (hps p (List.mem_cons_self p ps))] at h
    cases hvis : visit p.toNat fl o with
    | none => exact hv _ _ _ (hps p (List.mem_cons_self p ps)).2 hcnt hvis
    | some r1 =>
      rw [hvis] at h
      obtain ⟨fl1, o1, b1⟩ := r1
      cases b1 with
      | false => cases h
      | true =>
        have hle : unmarkedCount nodes.length fl1 ≤ unmarkedCount nodes.length fl :=
          unmarkedCount_le_of_mono (hm _ _ _ _ hvis)
        exact ih fl1 o1 (fun q hq => hps q (List.mem_cons_of_mem p hq))
          (Nat.lt_of_le_of_lt hle hcnt) h

theorem visitNode_total (nodes : List GNode) (hwf : WFNodes nodes) :
    ∀ fuel i fl o, i < nodes.length → unmarkedCount nodes.length fl < fuel →
      visitNode nodes fuel i fl o ≠ none := by
  intro fuel
  induction fuel with
  | zero => intro i fl o _ hcnt; exact absurd hcnt (Nat.not_lt_zero _)
  | succ fuel ih =>
    intro i fl o hi hcnt h
    simp only [visitNode] at h
    split at h
    · rename_i hget
      rw [List.get?_eq_get hi] at hget
      cases hget
    · rename_i node hget
      have hnode : node ∈ nodes := List.get?_mem hget
      split at h
      · cases h
      · cases h
      · rename_i hfl
        have hcnt1 : unmarkedCount nodes.length (setFlag fl i Mark.temp) < fuel :=
          Nat.lt_of_lt_of_le (unmarkedCount_setTemp_lt hi hfl) (Nat.lt_succ_iff.mp hcnt)
        split at h
        · rename_i hrp2
          exact runParents_total nodes fuel (fun j fl o => visitNode nodes fuel j fl o)
            (fun j fl2 o2 hj hc => ih j fl2 o2 hj hc)
            (fun j fl2 o2 r hh => visitNode_mono nodes fuel j fl2 o2 r hh)
            node.parentNodes (setFlag fl i Mark.temp) o
            (hwf _ hnode) hcnt1 hrp2
        · cases h
        · cases h

theorem topoSortAux_total (nodes : List GNode) (hwf : WFNodes nodes) (fuel : Nat) :
    ∀ ks fl o, (∀ i ∈ ks, i < nodes.length) → unmarkedCount nodes.length fl < fuel →
      topoSortAux nodes fuel ks fl o ≠ none := by
  intro ks
  induction ks with
  | nil => intro fl o _ _ h; simp [topoSortAux] at h
  | cons i ks ih =>
    intro fl o hks hcnt h
    simp only [topoSortAux] at h
    cases hfl : fl i with
    | unmarked =>
      rw [hfl] at h
      cases hv : visitNode nodes fuel i fl o with
      | none => exact visitNode_total nodes hwf fuel i fl o (hks i (List.mem_cons_self i ks)) hcnt hv
      | some r1 =>
        rw [hv] at h
        obtain ⟨fl1, o1, b1⟩ := r1
        cases b1 with
        | false => cases h
        | true =>
          have hle : unmarkedCount nodes.length fl1 ≤ unmarkedCount nodes.length fl :=
            unmarkedCount_le_of_mono (visitNode_mono nodes fuel i fl o _ hv)
          exact ih fl1 o1 (fun q hq => hks q (List.mem_cons_of_mem i hq))
            (Nat.lt_of_le_of_lt hle hcnt) h
    | temp =>
      rw [hfl] at h
      exact ih fl o (fun q hq => hks q (List.mem_cons_of_mem i hq)) hcnt h
    | permanent =>
      rw [hfl] at h
      exact ih fl o (fun q hq => hks q (List.mem_cons_of_mem i hq)) hcnt h

theorem topologicalSort_total (nodes : List GNode) (hwf : WFNodes nodes) :
    topologicalSort nodes (nodes.length + 1) ≠ none := by
  unfold topologicalSort
  refine topoSortAux_total nodes hwf _ _ _ _ (fun i hi => List.mem_range.mp hi) ?_
  calc unmarkedCount nodes.length (fun _ => Mark.unmarked)
      ≤ (List.range nodes.length).length := List.countP_le_length _
    _ = nodes.length := List.length_range nodes.length
    _ < nodes.length + 1 := Nat.lt_succ_self _

theorem topoSortAux_error_empty (nodes : List GNode) (fuel : Nat) :
    ∀ ks fl o out, topoSortAux nodes fuel ks fl o = some (out, true) → out = [] := by
  intro ks
  induction ks with
  | nil => intro fl o out h; simp [topoSortAux] at h
  | cons i ks ih =>
    intro fl o out h
    simp only [topoSortAux] at h
    cases hfl : fl i with
    | unmarked =>
      rw [hfl] at h
      cases hv : visitNode nodes fuel i fl o with
      | none => rw [hv] at h; cases h
      | some r1 =>
        rw [hv] at h
        obtain ⟨fl1, o1, b1⟩ := r1
        cases b1 with
        | false => cases h; rfl
        | true => exact ih fl1 o1 out h
    | temp => rw [hfl] at h; exact ih fl o out h
    | permanent => rw [hfl] at h; exact ih fl o out h

/-- The name of the node at an index (total helper). -/
def nameAt (nodes : List GNode) (j : Nat) : String :=
  ((nodes.get? j).map GNode.name).getD ""

/-- The parent list of the node at an index (total helper). -/
def parentsAt (nodes : List GNode) (j : Nat) : List Int :=
  ((nodes.get? j).map GNode.parentNodes).getD []

/-- The invariant tying the flag state and output list of the DFS to
the list perm of node indices emitted so far: exactly the PERMANENT
nodes are emitted, each exactly once, the output is their names, and
every parent of an emitted node is emitted strictly earlier. -/
def PermInv (nodes : List GNode) (fl : Flags) (out : List String) (perm : List Nat) : Prop :=
  perm.Nodup ∧
  (∀ j ∈ perm, j < nodes.length) ∧
  (∀ j, j < nodes.length → (fl j = Mark.permanent ↔ j ∈ perm)) ∧
  out = perm.map (nameAt nodes) ∧
  (∀ k (hk : k < perm.length) (p : Int), p ∈ parentsAt nodes (perm.get ⟨k, hk⟩) →
    ∃ jp, p = Int.ofNat jp ∧ jp ∈ perm.take k)

theorem runParents_success (nodes : List GNode)
    (visit : Nat → Flags → List String → Option (Flags × List String × Bool))
    (hmono : ∀ j fl o r, visit j fl o = some r → FlagsMono fl r.1)
    (hvisit : ∀ j fl o fl2 o2 perm, visit j fl o = some (fl2, o2, true) →
      PermInv nodes fl o perm →
      ∃ ext, PermInv nodes fl2 o2 (perm ++ ext) ∧
        (∀ q, fl2 q = Mark.temp → fl q = Mark.temp) ∧
        fl2 j = Mark.permanent ∧ j < nodes.length) :
    ∀ ps fl o fl2 o2 perm,
      runParents visit nodes.length ps fl o = some (fl2, o2, true) →
      PermInv nodes fl o perm →
      ∃ ext, PermInv nodes fl2 o2 (perm ++ ext) ∧
        (∀ q, fl2 q = Mark.temp → fl q = Mark.temp) ∧
        (∀ p ∈ ps, ∃ jp, p = Int.ofNat jp ∧ fl2 jp = Mark.permanent ∧ jp < nodes.length) := by
  intro ps
  induction ps with
  | nil =>
    intro fl o fl2 o2 perm h hinv
    simp only [runParents] at h
    cases h
    exact ⟨[], by simpa using hinv, fun q hq => hq, fun p hp => absurd hp (List.not_mem_nil p)⟩
  | cons p ps ih =>
    intro fl o fl2 o2 perm h hinv
    simp only [runParents] at h
    split at h
    · rename_i hpv
      split at h
      · cases h
      · exact absurd h (by simp)
      · rename_i fl1 o1 hvis
        obtain ⟨ext1, hinv1, htemps1, hperm1, hlt1⟩ :=
          hvisit p.toNat fl o fl1 o1 perm hvis hinv
        obtain ⟨ext2, hinv2, htemps2, hps⟩ := ih fl1 o1 fl2 o2 (perm ++ ext1) h hinv1
        rw [List.append_assoc] at hinv2
        refine ⟨ext1 ++ ext2, hinv2, fun q hq => htemps1 q (htemps2 q hq), ?_⟩
        intro q hq
        rcases List.mem_cons.mp hq with hq | hq
        · subst hq
          refine ⟨q.toNat, (Int.toNat_of_nonneg hpv.1).symm, ?_, hlt1⟩
          exact (runParents_mono hmono _ _ _ _ h).1 _ hperm1
        · exact hps q hq
    · cases h

theorem visitNode_success (nodes : List GNode) :
    ∀ fuel i fl o fl2 o2 perm,
      visitNode nodes fuel i fl o = some (fl2, o2, true) →
      PermInv nodes fl o perm →
      ∃ ext, PermInv nodes fl2 o2 (perm ++ ext) ∧
        (∀ q, fl2 q = Mark.temp → fl q = Mark.temp) ∧
        fl2 i = Mark.permanent ∧ i < nodes.length := by
  intro fuel
  induction fuel with
  | zero => intro i fl o fl2 o2 perm h _; simp [visitNode] at h
  | succ fuel ih =>
    intro i fl o fl2 o2 perm h hinv
    simp only [visitNode] at h
    split at h
    · cases h
    · rename_i node hget
      obtain ⟨hi, hgeteq⟩ := List.get?_eq_some.mp hget
      split at h
      · rename_i hfl
        cases h
        exact ⟨[], by simpa using hinv, fun q hq => hq, hfl, hi⟩
      · exact absurd h (by simp)
      · rename_i hfl
        split at h
        · cases h
        · exact absurd h (by simp)
        · rename_i flr outr hrp
          cases h
          obtain ⟨hnd, hbnd, hiff, hout, hsor⟩ := hinv
          have hinv1 : PermInv nodes (setFlag fl i Mark.temp) o perm := by
            refine ⟨hnd, hbnd, fun j hj => ?_, hout, hsor⟩
            by_cases hji : j = i
            · subst hji
              constructor
              · intro hc; simp [setFlag] at hc
              · intro hc
                exact absurd ((hiff j hj).mpr hc) (by rw [hfl]; simp)
            · simpa [setFlag, hji] using hiff j hj
          obtain ⟨ext1, hinv2, htemps, hpar⟩ :=
            runParents_success nodes _ (fun j fl o r hh => visitNode_mono nodes fuel j fl o r hh)
              (fun j fl o fl2 o2 perm hh hinvv => ih j fl o fl2 o2 perm hh hinvv)
              node.parentNodes (setFlag fl i Mark.temp) o flr outr perm hrp hinv1
          have hflri : flr i = Mark.temp := by
            have h1 : setFlag fl i Mark.temp i = Mark.temp := by simp [setFlag]
            exact (runParents_mono (fun j fl o r hh => visitNode_mono nodes fuel j fl o r hh)
              _ _ _ _ hrp).2.1 i h1
          obtain ⟨hnd2, hbnd2, hiff2, hout2, hsor2⟩ := hinv2
          have hinotin : i ∉ perm ++ ext1 := by
            intro hc
            have := (hiff2 i hi).mpr hc
            rw [hflri] at this
            exact absurd this (by simp)
          have hnameAti : nameAt nodes i = node.name := by
            unfold nameAt; rw [hget]; rfl
          have hparAti : parentsAt nodes i = node.parentNodes := by
            unfold parentsAt; rw [hget]; rfl
          refine ⟨ext1 ++ [i], ?_, ?_, ?_, hi⟩
          · rw [← List.append_assoc]
            refine ⟨?_, ?_, ?_, ?_, ?_⟩
            · exact List.Nodup.append hnd2 (List.nodup_singleton i)
                (by intro a ha hb; rw [List.mem_singleton] at hb; exact hinotin (hb ▸ ha))
            · intro j hj
              rcases List.mem_append.mp hj with hj | hj
              · exact hbnd2 j hj
              · rw [List.mem_singleton] at hj; exact hj ▸ hi
            · intro j hj
              by_cases hji : j = i
              · subst hji
                simp [setFlag]
              · simp only [setFlag, hji, if_false]
                rw [hiff2 j hj]
                simp [List.mem_append, List.mem_singleton, hji]
            · rw [List.map_append, ← hout2, List.map_singleton, hnameAti]
            · intro k hk p hp
              rw [List.length_append, List.length_singleton] at hk
              by_cases hklt : k < (perm ++ ext1).length
              · have hgetk : ((perm ++ ext1) ++ [i]).get ⟨k, by simpa using hk⟩ =
                    (perm ++ ext1).get ⟨k, hklt⟩ := List.get_append k hklt
                rw [hgetk] at hp
                obtain ⟨jp, hpe, hjm⟩ := hsor2 k hklt p hp
                refine ⟨jp, hpe, ?_⟩
                rwa [List.take_append_of_le_length (Nat.le_of_lt hklt)]
              · have hkeq : k = (perm ++ ext1).length := by omega
                subst hkeq
                have hgetk : ((perm ++ ext1) ++ [i]).get
                    ⟨(perm ++ ext1).length, by simp⟩ = i := by
                  rw [List.get_eq_getElem]
                  exact List.getElem_concat_length (perm ++ ext1) i _ rfl _
                rw [hgetk, hparAti] at hp
                obtain ⟨jp, hpe, hjperm, hjlt⟩ := hpar p hp
                refine ⟨jp, hpe, ?_⟩
                have : jp ∈ perm ++ ext1 := (hiff2 jp hjlt).mp hjperm
                rwa [List.take_left]
          · intro q hq
            by_cases hqi : q = i
            · subst hqi
              simp [setFlag] at hq
            · simp only [setFlag, hqi, if_false] at hq
              have := htemps q hq
              by_cases hqi2 : q = i
              · exact absurd hqi2 hqi
              · simpa [setFlag, hqi2] using this
          · simp [setFlag]

theorem topoSortAux_success (nodes : List GNode) (fuel : Nat) :
    ∀ ks fl o out2 perm,
      topoSortAux nodes fuel ks fl o = some (out2, false) →
      PermInv nodes fl o perm →
      (∀ q, fl q ≠ Mark.temp) →
      (∀ i ∈ ks, i < nodes.length) →
      ∃ ext flx, PermInv nodes flx out2 (perm ++ ext) ∧ (∀ i ∈ ks, i ∈ perm ++ ext) := by
  intro ks
  induction ks with
  | nil =>
    intro fl o out2 perm h hinv _ _
    simp only [topoSortAux] at h
    cases h
    exact ⟨[], fl, by simpa using hinv, fun i hi => absurd hi (List.not_mem_nil i)⟩
  | cons i ks ih =>
    intro fl o out2 perm h hinv hnt hks
    have hi : i < nodes.length := hks i (List.mem_cons_self i ks)
    simp only [topoSortAux] at h
    cases hfl : fl i with
    | temp => exact absurd hfl (hnt i)
    | permanent =>
      rw [hfl] at h
      obtain ⟨ext, flx, hfin, hmem⟩ :=
        ih fl o out2 perm h hinv hnt (fun q hq => hks q (List.mem_cons_of_mem i hq))
      refine ⟨ext, flx, hfin, fun q hq => ?_⟩
      rcases List.mem_cons.mp hq with hq | hq
      · subst hq
        exact List.mem_append.mpr (Or.inl ((hinv.2.2.1 q hi).mp hfl))
      · exact hmem q hq
    | unmarked =>
      rw [hfl] at h
      cases hv : visitNode nodes fuel i fl o with
      | none => rw [hv] at h; cases h
      | some r1 =>
        rw [hv] at h
        obtain ⟨fl1, o1, b1⟩ := r1
        cases b1 with
        | false => exact absurd h (by simp)
        | true =>
          obtain ⟨ext1, hinv1, htemps1, hperm1, _⟩ :=
            visitNode_success nodes fuel i fl o fl1 o1 perm hv hinv
          have hnt1 : ∀ q, fl1 q ≠ Mark.temp := fun q hq => hnt q (htemps1 q hq)
          obtain ⟨ext2, flx, hfin, hmem⟩ := ih fl1 o1 out2 (perm ++ ext1) h hinv1 hnt1
            (fun q hq => hks q (List.mem_cons_of_mem i hq))
          rw [List.append_assoc] at hfin hmem
          refine ⟨ext1 ++ ext2, flx, hfin, fun q hq => ?_⟩
          rcases List.mem_cons.mp hq with hq | hq
          · subst hq
            have : q ∈ perm ++ ext1 := (hinv1.2.2.1 q hi).mp hperm1
            rcases List.mem_append.mp this with hh | hh
            · exact List.mem_append.mpr (Or.inl hh)
            · exact List.mem_append.mpr (Or.inr (List.mem_append.mpr (Or.inl hh)))
          · exact hmem q hq

theorem topologicalSort_success (nodes : List GNode) (fuel : Nat) (out : List String)
    (h : topologicalSort nodes fuel = some (out, false)) :
    ∃ perm : List Nat, out = perm.map (nameAt nodes) ∧ perm.Nodup ∧
      (∀ j ∈ perm, j < nodes.length) ∧ (∀ i, i < nodes.length → i ∈ perm) ∧
      (∀ k (hk : k < perm.length) (p : Int), p ∈ parentsAt nodes (perm.get ⟨k, hk⟩) →
        ∃ jp, p = Int.ofNat jp ∧ jp ∈ perm.take k) := by
  unfold topologicalSort at h
  have hinv0 : PermInv nodes (fun _ => Mark.unmarked) [] ([] : List Nat) := by
    refine ⟨List.nodup_nil, ?_, ?_, rfl, ?_⟩
    · intro j hj; cases hj
    · intro j _
      constructor
      · intro hc; exact absurd hc (by simp)
      · intro hc; cases hc
    · intro k hk; cases hk
  obtain ⟨ext, flx, hfin, hmem⟩ := topoSortAux_success nodes fuel _ _ _ out [] h hinv0
    (fun q hq => by simp at hq) (fun i hi => List.mem_range.mp hi)
  obtain ⟨hnd, hbnd, _, hout, hsor⟩ := hfin
  exact ⟨[] ++ ext, hout, hnd, hbnd,
    fun i hi => hmem i (List.mem_range.mpr hi), hsor⟩

/-! ## Cycles -/

/-- The edge relation of the node list: the node at index i lists j
among its parents. -/
def edgeToB (nodes : List GNode) (i j : Nat) : Bool :=
  match nodes.get? i with
  | some node => node.parentNodes.contains (Int.ofNat j)
  | none => false

/-- The edge set of the node list contains a cycle: a nonempty index
list where each entry has the (cyclically) next entry as a parent. -/
def hasCycle (nodes : List GNode) : Prop :=
  ∃ c : List Nat, c ≠ [] ∧ ∀ k, k < c.length →
    edgeToB nodes (c.getD k 0) (c.getD ((k + 1) % c.length) 0) = true

theorem indexOf_lt_of_mem_take {α : Type} [DecidableEq α] {a : α} : ∀ (l : List α) (k : Nat),
    a ∈ l.take k → l.indexOf a < k := by
  intro l
  induction l with
  | nil => intro k h; simp at h
  | cons b l ih =>
    intro k h
    cases k with
    | zero => simp at h
    | succ k =>
      rw [List.take_succ_cons] at h
      rcases List.mem_cons.mp h with hh | hh
      · subst hh
        simp [List.indexOf_cons_self]
      · by_cases hab : a = b
        · subst hab
          simp [List.indexOf_cons_self]
        · have := ih k hh
          rw [List.indexOf_cons_ne _ (fun he => hab (he.symm))]
          omega

theorem sorted_edge_lt (nodes : List GNode) (perm : List Nat)
    (hnd : perm.Nodup)
    (hsor : ∀ k (hk : k < perm.length) (p : Int), p ∈ parentsAt nodes (perm.get ⟨k, hk⟩) →
      ∃ jp, p = Int.ofNat jp ∧ jp ∈ perm.take k)
    (i j : Nat) (hi : i ∈ perm) (hedge : edgeToB nodes i j = true) :
    j ∈ perm ∧ perm.indexOf j < perm.indexOf i := by
  have hk : perm.indexOf i < perm.length := List.indexOf_lt_length.mpr hi
  have hgi : perm.get ⟨perm.indexOf i, hk⟩ = i := List.indexOf_get hk
  unfold edgeToB at hedge
  cases hget : nodes.get? i with
  | none => rw [hget] at hedge; cases hedge
  | some node =>
    rw [hget] at hedge
    have hmem : Int.ofNat j ∈ node.parentNodes := by
      simpa using hedge
    have hpar : Int.ofNat j ∈ parentsAt nodes (perm.get ⟨perm.indexOf i, hk⟩) := by
      rw [hgi]
      unfold parentsAt
      rw [hget]
      exact hmem
    obtain ⟨jp, hpe, hjm⟩ := hsor (perm.indexOf i) hk (Int.ofNat j) hpar
    have hjjp : j = jp := Int.ofNat.inj hpe
    subst hjjp
    refine ⟨List.take_subset _ _ hjm, indexOf_lt_of_mem_take _ _ hjm⟩

theorem no_cycle_of_sorted (nodes : List GNode) (perm : List Nat)
    (hnd : perm.Nodup)
    (hall : ∀ i, i < nodes.length → i ∈ perm)
    (hsor : ∀ k (hk : k < perm.length) (p : Int), p ∈ parentsAt nodes (perm.get ⟨k, hk⟩) →
      ∃ jp, p = Int.ofNat jp ∧ jp ∈ perm.take k)
    (hcyc : hasCycle nodes) : False := by
  obtain ⟨c, hne, hedges⟩ := hcyc
  have hlenpos : 0 < c.length := List.length_pos.mpr hne
  have hsrc : ∀ k, k < c.length → c.getD k 0 ∈ perm := by
    intro k hk
    have he := hedges k hk
    unfold edgeToB at he
    cases hget : nodes.get? (c.getD k 0) with
    | none => rw [hget] at he; cases he
    | some node =>
      have : c.getD k 0 < nodes.length := by
        rcases List.get?_eq_some.mp hget with ⟨hlt, _⟩
        exact hlt
      exact hall _ this
  cases hargm : List.argmin (fun x => perm.indexOf x) c with
  | none => exact hne (List.argmin_eq_none.mp hargm)
  | some m =>
    have hmopt : m ∈ List.argmin (fun x => perm.indexOf x) c := by rw [hargm]; rfl
    have hmc : m ∈ c := List.argmin_mem hmopt
    obtain ⟨⟨k, hk⟩, hgk⟩ := List.mem_iff_get.mp hmc
    have hgetd : c.getD k 0 = m := by
      rw [List.getD_eq_get c 0 hk]
      exact hgk
    have hb : c.getD ((k + 1) % c.length) 0 ∈ c := by
      have hlt : (k + 1) % c.length < c.length := Nat.mod_lt _ hlenpos
      rw [List.getD_eq_get c 0 hlt]
      exact List.get_mem c _ _
    have hedge := hedges k hk
    rw [hgetd] at hedge
    have hmperm : m ∈ perm := by
      have := hsrc k hk
      rwa [hgetd] at this
    obtain ⟨_, hlt⟩ := sorted_edge_lt nodes perm hnd hsor m _ hmperm hedge
    have hge := List.le_of_mem_argmin hb hmopt
    omega

/-- Claim C5: for every input node list whose edge set contains a
cycle, topologicalSort sets the error flag to true and returns the
empty list of names.  The node list must be wellformed (every parent
index points into the list, which is what the C++ caller constructs),
and the fuel bound length plus one is enough for the sort to finish on
any input of this size. -/
theorem topologicalSort_cycle_error (nodes : List GNode)
    (hwf : WFNodes nodes) (hcyc : hasCycle nodes) :
    topologicalSort nodes (nodes.length + 1) = some ([], true) := by
  cases h : topologicalSort nodes (nodes.length + 1) with
  | none => exact absurd h (topologicalSort_total nodes hwf)
  | some r =>
    obtain ⟨out, err⟩ := r
    cases err with
    | false =>
      obtain ⟨perm, _, hnd, _, hall, hsor⟩ := topologicalSort_success nodes _ out h
      exact absurd hcyc (fun hc => no_cycle_of_sorted nodes perm hnd hall hsor hc)
    | true =>
      have hout : out = [] := by
        unfold topologicalSort at h
        exact topoSortAux_error_empty nodes _ _ _ _ out h
      rw [hout]

/-- Witness: the cycle theorem applied to a concrete two-node cycle. -/
theorem topologicalSort_cycle_error_witness :
    topologicalSort [⟨"A", [1]⟩, ⟨"B", [0]⟩] 3 = some ([], true) :=
  topologicalSort_cycle_error [⟨"A", [1]⟩, ⟨"B", [0]⟩] (by decide)
    ⟨[0, 1], by decide, by decide⟩

/-! ## Registry lemmas -/

theorem lookupReg_mapAt (reg : Registry) (key k2 : String) (f : PluginRecord → PluginRecord) :
    lookupReg (mapAt reg key f) k2 =
      if k2 = key then (lookupReg reg key).map f else lookupReg reg k2 := by
  induction reg with
  | nil => simp [mapAt, lookupReg]
  | cons e rest ih =>
    obtain ⟨k, r⟩ := e
    simp only [mapAt, List.map_cons] at ih ⊢
    by_cases hk : k = key
    · subst hk
      simp only [if_pos rfl]
      by_cases h2 : k2 = k
      · subst h2
        simp [lookupReg]
      · have h2s : ¬k = k2 := fun he => h2 he.symm
        simp [lookupReg, h2, h2s, ih]
    · simp only [if_neg hk]
      by_cases h2 : k2 = k
      · subst h2
        simp [lookupReg, hk]
      · have h2s : ¬k = k2 := fun he => h2 he.symm
        simp [lookupReg, h2s, hk, ih]

theorem lookupReg_erase_ne (reg : Registry) (key k2 : String) (hne : k2 ≠ key) :
    lookupReg (eraseReg reg key) k2 = lookupReg reg k2 := by
  induction reg with
  | nil => rfl
  | cons e rest ih =>
    obtain ⟨k, r⟩ := e
    unfold eraseReg at ih ⊢
    rw [List.filter_cons]
    by_cases hk : k = key
    · have hbeq : (k == key) = true := beq_iff_eq.mpr hk
      have hkk2 : ¬k = k2 := fun he => hne (he ▸ hk)
      simp only [hbeq, Bool.not_true, Bool.false_eq_true, if_false]
      rw [ih]
      simp [lookupReg, hkk2]
    · have hbeq : (k == key) = false := beq_eq_false_iff_ne.mpr hk
      simp only [hbeq, Bool.not_false, if_true]
      by_cases h2 : k = k2
      · simp [lookupReg, h2]
      · simp [lookupReg, h2, ih]

theorem lookupReg_append (reg1 reg2 : Registry) (k2 : String) :
    lookupReg (reg1 ++ reg2) k2 =
      match lookupReg reg1 k2 with
      | some x => some x
      | none => lookupReg reg2 k2 := by
  induction reg1 with
  | nil => simp [lookupReg]
  | cons e rest ih =>
    obtain ⟨k, r⟩ := e
    by_cases h2 : k = k2 <;> simp [lookupReg, h2, ih]

theorem lookupReg_eq_none_iff (reg : Registry) (key : String) :
    lookupReg reg key = none ↔ key ∉ reg.map Prod.fst := by
  induction reg with
  | nil => simp [lookupReg]
  | cons e rest ih =>
    obtain ⟨k, r⟩ := e
    by_cases hk : k = key
    · subst hk
      simp [lookupReg]
    · have hks : ¬key = k := fun he => hk he.symm
      simp [lookupReg, hk, hks, ih]

theorem countKey_cons (k : String) (r : PluginRecord) (rest : Registry) (key : String) :
    countKey ((k, r) :: rest) key =
      (if k = key then 1 else 0) + countKey rest key := by
  by_cases hk : k = key
  · have hbeq : (k == key) = true := beq_iff_eq.mpr hk
    simp [countKey, List.filter_cons, hbeq, hk]
    omega
  · have hbeq : (k == key) = false := beq_eq_false_iff_ne.mpr hk
    simp [countKey, List.filter_cons, hbeq, hk]

theorem countKey_of_nodup (reg : Registry) (h : keysNodup reg) (key : String) :
    countKey reg key = if (lookupReg reg key).isSome then 1 else 0 := by
  induction reg with
  | nil => simp [countKey, lookupReg]
  | cons e rest ih =>
    obtain ⟨k, r⟩ := e
    obtain ⟨hk, hrest⟩ := List.nodup_cons.mp h
    rw [countKey_cons]
    by_cases h2 : k = key
    · subst h2
      have hnone : lookupReg rest k = none :=
        (lookupReg_eq_none_iff rest k).mpr hk
      rw [ih hrest, hnone]
      simp [lookupReg]
    · rw [ih hrest]
      simp [lookupReg, h2]

theorem keysNodup_insert (reg : Registry) (key : String) (r : PluginRecord)
    (h : keysNodup reg) (hnew : lookupReg reg key = none) :
    keysNodup (insertReg reg key r) := by
  unfold keysNodup insertReg
  rw [List.map_append, List.nodup_append]
  refine ⟨h, by simp, ?_⟩
  intro a ha hb
  simp at hb
  subst hb
  exact (lookupReg_eq_none_iff reg a).mp hnew ha

/-! ## The dependency check changes only the tri-state flags -/

/-- Erase the tri-state flag of a record. -/
def scrubFlag (r : PluginRecord) : PluginRecord :=
  { r with dependenciesExists := TriBool.indet }

/-- The two registries agree on everything but the tri-state flags. -/
def flagOnlyChange (reg reg2 : Registry) : Prop :=
  reg2.map (fun e => (e.1, scrubFlag e.2)) = reg.map (fun e => (e.1, scrubFlag e.2))

theorem scrubFlag_set (r : PluginRecord) (tb : TriBool) :
    scrubFlag { r with dependenciesExists := tb } = scrubFlag r := by
  cases r; rfl

theorem flagOnly_refl (reg : Registry) : flagOnlyChange reg reg := rfl

theorem flagOnly_trans {a b c : Registry} (h1 : flagOnlyChange a b)
    (h2 : flagOnlyChange b c) : flagOnlyChange a c :=
  h2.trans h1

theorem flagOnly_mapAt (reg : Registry) (key : String) (tb : TriBool) :
    flagOnlyChange reg
      (mapAt reg key (fun r => { r with dependenciesExists := tb })) := by
  unfold flagOnlyChange mapAt
  rw [List.map_map]
  refine List.map_congr_left (fun e _ => ?_)
  by_cases he : e.1 = key <;> simp [Function.comp, he, scrubFlag_set]

theorem flagOnly_lookup {reg reg2 : Registry} (h : flagOnlyChange reg reg2) (k : String) :
    (lookupReg reg2 k).map scrubFlag = (lookupReg reg k).map scrubFlag := by
  induction reg generalizing reg2 with
  | nil =>
    cases reg2 with
    | nil => rfl
    | cons e2 rest2 => exact absurd h (by simp [flagOnlyChange])
  | cons e rest ih =>
    obtain ⟨ka, ra⟩ := e
    cases reg2 with
    | nil => exact absurd h (by simp [flagOnlyChange])
    | cons e2 rest2 =>
      obtain ⟨kb, rb⟩ := e2
      unfold flagOnlyChange at h
      simp only [List.map_cons, List.cons.injEq, Prod.mk.injEq] at h
      obtain ⟨⟨hkey, hscrub⟩, htail⟩ := h
      by_cases hk : ka = k
      · have hk2 : kb = k := hkey.trans hk
        simp [lookupReg, hk, hk2, hscrub]
      · have hk2 : ¬kb = k := fun he => hk ((hkey.symm.trans he))
        simp only [lookupReg, hk, hk2, if_false]
        exact ih htail

theorem checkDepLoop_flagOnly
    (check : Registry → String → Option (Registry × RC))
    (hc : ∀ reg k res, check reg k = some res → flagOnlyChange reg res.1)
    (selfKey : String) :
    ∀ ds reg res, checkDepLoop check selfKey reg ds = some res →
      flagOnlyChange reg res.1 := by
  intro ds
  induction ds with
  | nil =>
    intro reg res h
    simp only [checkDepLoop] at h
    cases h
    exact flagOnly_mapAt reg selfKey TriBool.yes
  | cons dep rest ih =>
    intro reg res h
    simp only [checkDepLoop] at h
    split at h
    · cases h
      exact flagOnly_mapAt reg selfKey TriBool.no
    · split at h
      · split at h
        · cases h
        · rename_i reg1 rc hcheck
          by_cases hrc : rc.isSuccess = true
          · rw [if_pos hrc] at h
            exact flagOnly_trans (hc _ _ _ hcheck) (ih _ _ h)
          · rw [if_neg hrc] at h
            cases h
            exact hc _ _ _ hcheck
      · cases h
        exact flagOnly_mapAt reg selfKey TriBool.no

theorem checkDependencies_flagOnly :
    ∀ fuel reg k res, checkDependencies fuel reg k = some res →
      flagOnlyChange reg res.1 := by
  intro fuel
  induction fuel with
  | zero => intro reg k res h; simp [checkDependencies] at h
  | succ fuel ih =>
    intro reg k res h
    simp only [checkDependencies] at h
    split at h
    · cases h
    · split at h
      · cases h; exact flagOnly_refl _
      · cases h; exact flagOnly_refl _
      · exact checkDepLoop_flagOnly _ (fun reg2 k2 res2 hh => ih reg2 k2 res2 hh) _ _ _ _ h

/-! ## Claim C3: the memoized branch of checkDependencies -/

/-- Claim C3 (amended): when the tri-state flag of a record is already
determined, checkDependencies returns at once without re-examining the
dependencies and without touching the registry: SUCCESS when the flag
is yes, and when the flag is no a code recomputed from the present
registry state, namely DEPENDENCY_NOT_FOUND when no record is stored
under the metadata name of this plugin and DEPENDENCY_BAD_VERSION
otherwise, which can differ from the code the original check
returned. -/
theorem checkDependencies_memoized (fuel : Nat) (reg : Registry) (key : String)
    (rec : PluginRecord) (h : lookupReg reg key = some rec)
    (hdet : rec.dependenciesExists ≠ TriBool.indet) :
    checkDependencies (fuel + 1) reg key =
      some (reg,
        if rec.dependenciesExists = TriBool.yes then RC.success
        else if countKey reg rec.info.name = 0 then RC.loadDependencyNotFound
        else RC.loadDependencyBadVersion) := by
  obtain ⟨pa, lib, info, flag, gid, ipl, im⟩ := rec
  simp only [checkDependencies]
  rw [h]
  cases flag with
  | yes => simp
  | no => simp
  | indet => exact absurd rfl hdet

/-- The record of the counterexample: plugin B declaring a dependency
on the absent plugin Z. -/
def cexRecB : PluginRecord :=
  { path := "/plugins/libb.so", libLoaded := true,
    info := { PluginInfoStd.empty with
              name := "B"
              version := "1.0.0"
              dependencies := [⟨"Z", "1.0.0"⟩] },
    dependenciesExists := TriBool.indet, graphId := -1, iplugin := none,
    isMainPlugin := false }

def cexRecBNo : PluginRecord := { cexRecB with dependenciesExists := TriBool.no }

/-- Counterexample to claim C3 as stated: the first check of B fails
with DEPENDENCY_NOT_FOUND and memoizes the flag as no; the second,
memoized call returns DEPENDENCY_BAD_VERSION, not the code the
original check returned, because the cached branch recomputes the code
from whether the registry holds a record under the name of B itself. -/
theorem checkDependencies_memo_not_cached :
    checkDependencies 2 [("B", cexRecB)] "B" =
      some ([("B", cexRecBNo)], RC.loadDependencyNotFound) ∧
    checkDependencies 2 [("B", cexRecBNo)] "B" =
      some ([("B", cexRecBNo)], RC.loadDependencyBadVersion) := by
  constructor <;> rfl

/-- Witness: the amended theorem applied to the memoized state of the
counterexample record. -/
theorem checkDependencies_memoized_witness :
    checkDependencies 2 [("B", cexRecBNo)] "B" =
      some ([("B", cexRecBNo)],
        if cexRecBNo.dependenciesExists = TriBool.yes then RC.success
        else if countKey [("B", cexRecBNo)] cexRecBNo.info.name = 0 then
          RC.loadDependencyNotFound
        else RC.loadDependencyBadVersion) :=
  checkDependencies_memoized 1 [("B", cexRecBNo)] "B" cexRecBNo rfl (by decide)

/-! ## Claim C6: main-plugin privilege of getNonDepPlugin -/

/-- Claim C6: when the sender names a record of the Registry, the call
returns (it does not crash), and it hands out a non-null pointer iff
the sender record has isMainPlugin and the target is LIVE (present,
library loaded, instance non-null); the pointer is exactly the stored
live instance of the target, and in every other case null is
returned. -/
theorem getNonDepPlugin_eq (reg : Registry) (sender target : String)
    (srec : PluginRecord) (h : lookupReg reg sender = some srec) :
    getNonDepPlugin reg sender target =
      if srec.isMainPlugin then
        if isPluginLoaded reg target then
          some ((lookupReg reg target).bind (fun r => r.iplugin))
        else some none
      else some none := by
  unfold getNonDepPlugin
  rw [h]

theorem getNonDepPlugin_spec (reg : Registry) (sender target : String)
    (srec : PluginRecord) (h : lookupReg reg sender = some srec) :
    (srec.isMainPlugin = true → isPluginLoaded reg target = true →
      ∃ trec, lookupReg reg target = some trec ∧ trec.libLoaded = true ∧
        trec.iplugin.isSome = true ∧
        getNonDepPlugin reg sender target = some trec.iplugin) ∧
    (srec.isMainPlugin = false ∨ isPluginLoaded reg target = false →
      getNonDepPlugin reg sender target = some none) := by
  rw [getNonDepPlugin_eq reg sender target srec h]
  constructor
  · intro hm hl
    cases ht : lookupReg reg target with
    | none =>
      unfold isPluginLoaded at hl
      rw [ht] at hl
      exact absurd hl (by simp)
    | some trec =>
      have hl2 : trec.libLoaded = true ∧ trec.iplugin.isSome = true := by
        unfold isPluginLoaded at hl
        rw [ht] at hl
        simpa using hl
      refine ⟨trec, rfl, hl2.1, hl2.2, ?_⟩
      rw [if_pos hm, if_pos hl]
      rfl
  · intro hcase
    rcases hcase with hm | hl
    · rw [if_neg (by simp [hm])]
    · by_cases hm2 : srec.isMainPlugin = true
      · rw [if_pos hm2, if_neg (by simp [hl])]
      · rw [if_neg hm2]

def wMainRec : PluginRecord :=
  { path := "/m", libLoaded := true, info := { PluginInfoStd.empty with name := "M" },
    dependenciesExists := TriBool.yes, graphId := -1, iplugin := some 0,
    isMainPlugin := true }

def wTargetRec : PluginRecord :=
  { path := "/x", libLoaded := true, info := { PluginInfoStd.empty with name := "X" },
    dependenciesExists := TriBool.yes, graphId := -1, iplugin := some 1,
    isMainPlugin := false }

def wRegC6 : Registry := [("M", wMainRec), ("X", wTargetRec)]

/-- Witness: the getNonDepPlugin theorem at a concrete registry with a
main plugin M and a live target X. -/
theorem getNonDepPlugin_spec_witness :
    (wMainRec.isMainPlugin = true → isPluginLoaded wRegC6 "X" = true →
      ∃ trec, lookupReg wRegC6 "X" = some trec ∧ trec.libLoaded = true ∧
        trec.iplugin.isSome = true ∧
        getNonDepPlugin wRegC6 "M" "X" = some trec.iplugin) ∧
    (wMainRec.isMainPlugin = false ∨ isPluginLoaded wRegC6 "X" = false →
      getNonDepPlugin wRegC6 "M" "X" = some none) :=
  getNonDepPlugin_spec wRegC6 "M" "X" wMainRec rfl

/-! ## Claim C4: targeted load by name -/

/-- Claim C4: for a plugin name with a record in the Registry,
loadPlugin is a no-op returning true when the library of the record is
already loaded; returns false when the dependency check fails; and
otherwise invokes the factory, stores the fresh instance in the record
and calls loaded() on it (the trace), returning true. -/
theorem loadPluginByName_eq (fuel : Nat) (reg : Registry) (name : String)
    (freshId : Nat) (rec : PluginRecord) (h : lookupReg reg name = some rec) :
    loadPluginByName fuel reg name freshId =
      if rec.libLoaded then some (reg, true, [])
      else
        match checkDependencies fuel reg name with
        | none => none
        | some (reg1, rc) =>
          if rc.isSuccess then
            let p := loadPluginRecord reg1 name freshId
            some (p.1, true, p.2)
          else some (reg1, false, []) := by
  unfold loadPluginByName
  rw [h]

theorem loadPluginByName_spec (fuel : Nat) (reg : Registry) (name : String)
    (freshId : Nat) (rec : PluginRecord) (h : lookupReg reg name = some rec) :
    (rec.libLoaded = true → loadPluginByName fuel reg name freshId = some (reg, true, [])) ∧
    (∀ reg1 rc, rec.libLoaded = false →
      checkDependencies fuel reg name = some (reg1, rc) → rc.isSuccess = false →
      loadPluginByName fuel reg name freshId = some (reg1, false, [])) ∧
    (∀ reg1 rc, rec.libLoaded = false →
      checkDependencies fuel reg name = some (reg1, rc) → rc.isSuccess = true →
      ∃ rec1, lookupReg reg1 name = some rec1 ∧
        loadPluginByName fuel reg name freshId =
          some (mapAt reg1 name (fun r => { r with iplugin := some freshId }), true, [name]) ∧
        lookupReg (mapAt reg1 name (fun r => { r with iplugin := some freshId })) name =
          some { rec1 with iplugin := some freshId }) := by
  rw [loadPluginByName_eq fuel reg name freshId rec h]
  refine ⟨?_, ?_, ?_⟩
  · intro hlib
    rw [if_pos hlib]
  · intro reg1 rc hlib hcd hrc
    rw [if_neg (by simp [hlib]), hcd]
    simp [hrc]
  · intro reg1 rc hlib hcd hrc
    have hsome : (lookupReg reg1 name).isSome = true := by
      have := flagOnly_lookup (checkDependencies_flagOnly fuel reg name (reg1, rc) hcd) name
      rw [h] at this
      cases hl1 : lookupReg reg1 name with
      | none => rw [hl1] at this; simp at this
      | some rec1 => rfl
    cases hl1 : lookupReg reg1 name with
    | none => rw [hl1] at hsome; cases hsome
    | some rec1 =>
      refine ⟨rec1, rfl, ?_, ?_⟩
      · rw [if_neg (by simp [hlib]), hcd]
        simp [hrc, loadPluginRecord]
      · rw [lookupReg_mapAt, if_pos rfl, hl1]
        rfl

def wRecC4 : PluginRecord :=
  { path := "/w", libLoaded := false, info := { PluginInfoStd.empty with name := "W" },
    dependenciesExists := TriBool.indet, graphId := -1, iplugin := none,
    isMainPlugin := false }

def wRegC4 : Registry := [("W", wRecC4)]

/-- Witness: the targeted-load theorem at a one-record registry. -/
theorem loadPluginByName_spec_witness :
    (wRecC4.libLoaded = true → loadPluginByName 1 wRegC4 "W" 5 = some (wRegC4, true, [])) ∧
    (∀ reg1 rc, wRecC4.libLoaded = false →
      checkDependencies 1 wRegC4 "W" = some (reg1, rc) → rc.isSuccess = false →
      loadPluginByName 1 wRegC4 "W" 5 = some (reg1, false, [])) ∧
    (∀ reg1 rc, wRecC4.libLoaded = false →
      checkDependencies 1 wRegC4 "W" = some (reg1, rc) → rc.isSuccess = true →
      ∃ rec1, lookupReg reg1 "W" = some rec1 ∧
        loadPluginByName 1 wRegC4 "W" 5 =
          some (mapAt reg1 "W" (fun r => { r with iplugin := some 5 }), true, ["W"]) ∧
        lookupReg (mapAt reg1 "W" (fun r => { r with iplugin := some 5 })) "W" =
          some { rec1 with iplugin := some 5 }) :=
  loadPluginByName_spec 1 wRegC4 "W" 5 wRecC4 rfl

/-! ## Claim C7: invalid metadata is rejected and never admitted -/

theorem exceptBind_ok {α β : Type} (a : α) (f : α → Except Unit β) :
    (Except.ok a >>= f) = f a := rfl

theorem parseMetadata_some (tree : Json) :
    parseMetadata (some tree) =
      match extractMetadata tree with
      | Except.ok info => info
      | Except.error _ => PluginInfoStd.empty := rfl

theorem parseMetadata_invalid (buf : Option Json) (h : metadataInvalid buf) :
    parseMetadata buf = PluginInfoStd.empty := by
  cases buf with
  | none => rfl
  | some tree =>
    rw [parseMetadata_some]
    rcases h with herr | ⟨api, hapi, hcompat⟩
    · rw [herr]
    · have hok : extractMetadata tree = Except.ok PluginInfoStd.empty := by
        unfold extractMetadata
        rw [show tree.getStringAt "api" = Except.ok api from hapi, exceptBind_ok]
        simp [hcompat]
      rw [hok]

/-- Claim C7: a candidate that reaches the metadata stage (library
loaded, jp symbols present, name not colliding) and whose metadata
buffer fails the JSON schema or carries an incompatible api version
yields the invalid record (empty name), fires the
CANNOT_PARSE_METADATA callback, and leaves the Registry unchanged, so
it is never admitted. -/
theorem searchForPlugins_invalid_metadata (reg : Registry) (found : Bool) (c : Candidate)
    (h1 : c.loadable = true) (h2 : c.hasJpSymbols = true)
    (h3 : countKey reg c.jpName ≠ 1) (h4 : metadataInvalid c.metadata) :
    parseMetadata c.metadata = PluginInfoStd.empty ∧
    processCandidate (reg, found) c = ((reg, found), [SEvent.cannotParseMetadata c.path]) := by
  have hp := parseMetadata_invalid c.metadata h4
  refine ⟨hp, ?_⟩
  unfold processCandidate
  simp [h1, h2, h3, hp, PluginInfoStd.empty]

def wBadJson : Json := Json.obj [("api", Json.str "2.0.0")]

def wCandC7 : Candidate :=
  { path := "/plugins/bad.so", loadable := true, hasJpSymbols := true,
    jpName := "bad", metadata := some wBadJson }

/-- Witness: the invalid-metadata theorem at a candidate whose api
version 2.0.0 is incompatible with the host api 1.0.0. -/
theorem searchForPlugins_invalid_metadata_witness :
    parseMetadata wCandC7.metadata = PluginInfoStd.empty ∧
    processCandidate ([], false) wCandC7 =
      (([], false), [SEvent.cannotParseMetadata wCandC7.path]) :=
  searchForPlugins_invalid_metadata [] false wCandC7 rfl rfl (by decide)
    (Or.inr ⟨"2.0.0", rfl, by decide⟩)

/-! ## Claims C8 and C9: discovery keeps keys unique and admits only
open library handles -/

theorem processCandidate_reg_spec (st : Registry × Bool) (c : Candidate) :
    (processCandidate st c).1.1 = st.1 ∨
    (countKey st.1 c.jpName ≠ 1 ∧
      (processCandidate st c).1.1 =
        insertReg st.1 c.jpName (newRecord c.path (parseMetadata c.metadata))) := by
  unfold processCandidate
  by_cases h1 : (c.loadable && c.hasJpSymbols) = true
  · rw [if_pos h1]
    by_cases h2 : countKey st.1 c.jpName = 1
    · rw [if_pos h2]
      left; rfl
    · rw [if_neg h2]
      dsimp only
      by_cases h3 : (parseMetadata c.metadata).name = ""
      · rw [if_pos h3]
        left; rfl
      · rw [if_neg h3]
        right; exact ⟨h2, rfl⟩
  · rw [if_neg h1]
    left; rfl

theorem searchLoop_reg_spec : ∀ (cs : List Candidate) (st : Registry × Bool),
    (keysNodup st.1 → keysNodup (searchLoop st cs).1.1) ∧
    (∀ n rec, lookupReg (searchLoop st cs).1.1 n = some rec →
      lookupReg st.1 n = some rec ∨ (rec.libLoaded = true ∧ rec.iplugin = none)) ∧
    (∀ n, (lookupReg st.1 n).isSome = true →
      (lookupReg (searchLoop st cs).1.1 n).isSome = true) := by
  intro cs
  induction cs with
  | nil =>
    intro st
    exact ⟨fun h => h, fun n rec h => Or.inl h, fun n h => h⟩
  | cons c rest ih =>
    intro st
    have hstep := processCandidate_reg_spec st c
    have hnodup1 : keysNodup st.1 → keysNodup (processCandidate st c).1.1 := by
      intro hnd
      rcases hstep with he | ⟨hcnt, he⟩
      · rw [he]; exact hnd
      · rw [he]
        refine keysNodup_insert _ _ _ hnd ?_
        rw [countKey_of_nodup _ hnd _] at hcnt
        by_cases hs : (lookupReg st.1 c.jpName).isSome = true
        · rw [if_pos hs] at hcnt; exact absurd rfl hcnt
        · cases hl : lookupReg st.1 c.jpName with
          | none => rfl
          | some x => rw [hl] at hs; exact absurd rfl hs
    have hlook1 : ∀ n rec, lookupReg (processCandidate st c).1.1 n = some rec →
        lookupReg st.1 n = some rec ∨ (rec.libLoaded = true ∧ rec.iplugin = none) := by
      intro n rec h
      rcases hstep with he | ⟨_, he⟩
      · rw [he] at h; exact Or.inl h
      · rw [he] at h
        unfold insertReg at h
        rw [lookupReg_append] at h
        cases hl : lookupReg st.1 n with
        | some x => rw [hl] at h; cases h; exact Or.inl rfl
        | none =>
          rw [hl] at h
          by_cases hn : c.jpName = n
          · simp [lookupReg, hn] at h
            right
            rw [← h]
            exact ⟨rfl, rfl⟩
          · simp [lookupReg, hn] at h
    have hpres1 : ∀ n, (lookupReg st.1 n).isSome = true →
        (lookupReg (processCandidate st c).1.1 n).isSome = true := by
      intro n h
      rcases hstep with he | ⟨_, he⟩
      · rw [he]; exact h
      · rw [he]
        unfold insertReg
        rw [lookupReg_append]
        cases hl : lookupReg st.1 n with
        | none => rw [hl] at h; cases h
        | some x => rfl
    obtain ⟨ihnd, ihlook, ihpres⟩ := ih (processCandidate st c).1
    refine ⟨?_, ?_, ?_⟩
    · intro hnd
      exact ihnd (hnodup1 hnd)
    · intro n rec h
      rcases ihlook n rec h with hh | hh
      · exact hlook1 n rec hh
      · exact Or.inr hh
    · intro n h
      exact ihpres n (hpres1 n h)

theorem searchForPlugins_reg (reg : Registry) (locations : List String) (dir : String)
    (cs : List Candidate) (le : Bool) :
    (searchForPlugins reg locations dir cs le).1 = reg ∨
    (searchForPlugins reg locations dir cs le).1 = (searchLoop (reg, false) cs).1.1 := by
  unfold searchForPlugins
  by_cases h1 : (le && cs.isEmpty) = true
  · rw [if_pos h1]; left; rfl
  · rw [if_neg h1]
    dsimp only
    by_cases h2 : (searchLoop (reg, false) cs).1.2 = true
    · rw [if_pos h2]; right; rfl
    · rw [if_neg h2]; right; rfl

/-- Claim C8: a candidate whose jp name is already registered fires
NAME_ALREADY_EXISTS and is discarded (registry untouched); the keys of
the Registry stay pairwise distinct across a whole searchForPlugins
call, and a name that had exactly one record before still has exactly
one afterwards. -/
theorem searchForPlugins_name_unique (reg : Registry) (found : Bool) (c : Candidate)
    (locations : List String) (dir : String) (cs : List Candidate) (le : Bool)
    (hnd : keysNodup reg) :
    (c.loadable = true → c.hasJpSymbols = true → countKey reg c.jpName = 1 →
      processCandidate (reg, found) c = ((reg, found), [SEvent.nameAlreadyExists c.path])) ∧
    keysNodup (searchForPlugins reg locations dir cs le).1 ∧
    (∀ name, countKey reg name = 1 →
      countKey (searchForPlugins reg locations dir cs le).1 name = 1) := by
  refine ⟨?_, ?_, ?_⟩
  · intro h1 h2 h3
    unfold processCandidate
    simp [h1, h2, h3]
  · rcases searchForPlugins_reg reg locations dir cs le with he | he <;> rw [he]
    · exact hnd
    · exact (searchLoop_reg_spec cs (reg, false)).1 hnd
  · intro name hcount
    have hsome : (lookupReg reg name).isSome = true := by
      rw [countKey_of_nodup reg hnd name] at hcount
      by_cases hs : (lookupReg reg name).isSome = true
      · exact hs
      · rw [if_neg hs] at hcount; cases hcount
    rcases searchForPlugins_reg reg locations dir cs le with he | he <;> rw [he]
    · exact hcount
    · have hnd2 := (searchLoop_reg_spec cs (reg, false)).1 hnd
      have hsome2 := (searchLoop_reg_spec cs (reg, false)).2.2 name hsome
      rw [countKey_of_nodup _ hnd2 name, if_pos hsome2]

/-- Claim C9: every record newly admitted by searchForPlugins holds an
open library handle and no live instance yet: a merely-discovered
plugin already reports its library as loaded. -/
theorem searchForPlugins_admitted_loaded (reg : Registry) (locations : List String)
    (dir : String) (cs : List Candidate) (le : Bool) :
    ∀ n rec, lookupReg (searchForPlugins reg locations dir cs le).1 n = some rec →
      lookupReg reg n = none → rec.libLoaded = true ∧ rec.iplugin = none := by
  intro n rec hafter hbefore
  rcases searchForPlugins_reg reg locations dir cs le with he | he
  · rw [he, hbefore] at hafter; cases hafter
  · rw [he] at hafter
    rcases (searchLoop_reg_spec cs (reg, false)).2.1 n rec hafter with hh | hh
    · rw [hh] at hbefore; cases hbefore
    · exact hh

def wRecA : PluginRecord :=
  { path := "/plugins/a.so", libLoaded := true,
    info := { PluginInfoStd.empty with name := "A" },
    dependenciesExists := TriBool.indet, graphId := -1, iplugin := none,
    isMainPlugin := false }

def wCandDup : Candidate :=
  { path := "/plugins/a2.so", loadable := true, hasJpSymbols := true,
    jpName := "A", metadata := none }

/-- Witness: the uniqueness theorem at a one-record registry and a
colliding candidate. -/
theorem searchForPlugins_name_unique_witness :
    (wCandDup.loadable = true → wCandDup.hasJpSymbols = true →
      countKey [("A", wRecA)] wCandDup.jpName = 1 →
      processCandidate ([("A", wRecA)], false) wCandDup =
        (([("A", wRecA)], false), [SEvent.nameAlreadyExists wCandDup.path])) ∧
    keysNodup (searchForPlugins [("A", wRecA)] [] "/dir" [wCandDup] false).1 ∧
    (∀ name, countKey [("A", wRecA)] name = 1 →
      countKey (searchForPlugins [("A", wRecA)] [] "/dir" [wCandDup] false).1 name = 1) :=
  searchForPlugins_name_unique [("A", wRecA)] false wCandDup [] "/dir" [wCandDup] false
    (by simp [keysNodup])

def wGoodJson : Json :=
  Json.obj [("api", Json.str "1.0.0"), ("name", Json.str "A"),
    ("prettyName", Json.str "Plugin A"), ("version", Json.str "1.0.0"),
    ("author", Json.str "a"), ("url", Json.str "u"), ("license", Json.str "l"),
    ("copyright", Json.str "c"), ("dependencies", Json.arr [])]

def wCandC9 : Candidate :=
  { path := "/plugins/a.so", loadable := true, hasJpSymbols := true,
    jpName := "A", metadata := some wGoodJson }

/-- Witness: the admitted-record theorem at an empty registry and one
valid candidate. -/
theorem searchForPlugins_admitted_loaded_witness :
    (newRecord "/plugins/a.so" (parseMetadata (some wGoodJson))).libLoaded = true ∧
    (newRecord "/plugins/a.so" (parseMetadata (some wGoodJson))).iplugin = none :=
  searchForPlugins_admitted_loaded [] [] "/dir" [wCandC9] false "A"
    (newRecord "/plugins/a.so" (parseMetadata (some wGoodJson))) (by rfl) rfl

/-! ## Claims C2 and C10: unload order and unload frame -/

theorem unloadPhase1_spec : ∀ (ns : List String) (reg : Registry), ns.Nodup →
    (∀ n ∈ ns, (lookupReg reg n).isSome = true) →
    unloadPhase1 ns reg =
      some (reg.filter (fun e => !(ns.contains e.1)),
        ns.filter (fun n => instancePresent reg n)) := by
  intro ns
  induction ns with
  | nil =>
    intro reg _ _
    have hall : reg.filter (fun e => !(([] : List String).contains e.1)) = reg := by
      have : ∀ e ∈ reg, (!(([] : List String).contains e.1)) = (fun _ => true) e := by
        intro e _; rfl
      rw [List.filter_congr this, List.filter_true]
    simp [unloadPhase1, hall]
  | cons n rest ih =>
    intro reg hnd hsub
    obtain ⟨hn, hrest⟩ := List.nodup_cons.mp hnd
    have hsomen := hsub n (List.mem_cons_self n rest)
    cases hlook : lookupReg reg n with
    | none => rw [hlook] at hsomen; cases hsomen
    | some rec =>
      simp only [unloadPhase1]
      rw [hlook]
      have hpres : ∀ m ∈ rest, (lookupReg (eraseReg reg n) m).isSome = true := by
        intro m hm
        rw [lookupReg_erase_ne reg n m (fun he => hn (he ▸ hm))]
        exact hsub m (List.mem_cons_of_mem n hm)
      rw [ih (eraseReg reg n) hrest hpres]
      have hA : (eraseReg reg n).filter (fun e => !(rest.contains e.1)) =
          reg.filter (fun e => !((n :: rest).contains e.1)) := by
        unfold eraseReg
        rw [List.filter_filter]
        refine List.filter_congr (fun e _ => ?_)
        rw [List.contains_cons]
        cases h1 : (e.1 == n) <;> cases h2 : rest.contains e.1 <;> simp [h1, h2]
      have hB : rest.filter (fun m => instancePresent (eraseReg reg n) m) =
          rest.filter (fun m => instancePresent reg m) := by
        refine List.filter_congr (fun m hm => ?_)
        unfold instancePresent
        rw [lookupReg_erase_ne reg n m (fun he => hn (he ▸ hm))]
      have hCn : instancePresent reg n = rec.iplugin.isSome := by
        unfold instancePresent; rw [hlook]
      rw [hA, hB, List.filter_cons]
      cases hi : rec.iplugin.isSome <;> simp [hCn, hi]

theorem unloadPhase2_mem : ∀ (reg : Registry) (n : String), n ∈ unloadPhase2 reg →
    ∃ r, (n, r) ∈ reg := by
  intro reg
  induction reg with
  | nil => intro n h; simp [unloadPhase2] at h
  | cons e rest ih =>
    obtain ⟨k, rec⟩ := e
    intro n h
    simp only [unloadPhase2] at h
    rw [List.mem_append] at h
    rcases h with h | h
    · by_cases hi : rec.iplugin.isSome = true
      · rw [if_pos hi] at h
        rw [List.mem_singleton] at h
        subst h
        exact ⟨rec, List.mem_cons_self _ _⟩
      · rw [if_neg hi] at h; cases h
    · obtain ⟨r, hr⟩ := ih n h
      exact ⟨r, List.mem_cons_of_mem _ hr⟩

/-- Claim C2: when the stored load order has no duplicates and all its
names are in the map (the state the preceding loadPlugins leaves
behind), unloadPluginsInOrder fires aboutToBeUnloaded on the live
instances in exactly the reverse of the stored load order, and the
records outside the load order are drained only afterwards. -/
theorem unloadPlugins_reverse_order (st : MgrState)
    (hnd : st.loadOrderList.Nodup)
    (hsub : ∀ n ∈ st.loadOrderList, (lookupReg st.pluginsMap n).isSome = true) :
    ∃ tr2,
      unloadPluginsInOrder st =
        some ({ pluginsMap := [], locations := [],
                loadOrderList := st.loadOrderList, mainPluginName := st.mainPluginName },
          (st.loadOrderList.reverse.filter fun n => instancePresent st.pluginsMap n) ++ tr2) ∧
      ∀ n ∈ tr2, n ∉ st.loadOrderList := by
  have hrev_nd : st.loadOrderList.reverse.Nodup := List.nodup_reverse.mpr hnd
  have hrev_sub : ∀ n ∈ st.loadOrderList.reverse,
      (lookupReg st.pluginsMap n).isSome = true :=
    fun n hn => hsub n (List.mem_reverse.mp hn)
  have h1 := unloadPhase1_spec st.loadOrderList.reverse st.pluginsMap hrev_nd hrev_sub
  refine ⟨unloadPhase2 (st.pluginsMap.filter fun e =>
    !(st.loadOrderList.reverse.contains e.1)), ?_, ?_⟩
  · unfold unloadPluginsInOrder
    rw [h1]
  · intro n hn hcontra
    obtain ⟨r, hr⟩ := unloadPhase2_mem _ n hn
    have hfilt := List.of_mem_filter hr
    simp at hfilt
    exact hfilt hcontra

/-- Claim C10: unloadPluginsInOrder empties the Registry and clears
the locations list but leaves the stored load order (and the main
plugin name) unchanged. -/
theorem unloadPlugins_frame (st : MgrState)
    (hnd : st.loadOrderList.Nodup)
    (hsub : ∀ n ∈ st.loadOrderList, (lookupReg st.pluginsMap n).isSome = true) :
    ∃ tr, unloadPluginsInOrder st =
      some ({ pluginsMap := [], locations := [],
              loadOrderList := st.loadOrderList, mainPluginName := st.mainPluginName }, tr) := by
  have hrev_nd : st.loadOrderList.reverse.Nodup := List.nodup_reverse.mpr hnd
  have hrev_sub : ∀ n ∈ st.loadOrderList.reverse,
      (lookupReg st.pluginsMap n).isSome = true :=
    fun n hn => hsub n (List.mem_reverse.mp hn)
  have h1 := unloadPhase1_spec st.loadOrderList.reverse st.pluginsMap hrev_nd hrev_sub
  refine ⟨(st.loadOrderList.reverse.filter fun n => instancePresent st.pluginsMap n) ++
    unloadPhase2 (st.pluginsMap.filter fun e =>
      !(st.loadOrderList.reverse.contains e.1)), ?_⟩
  unfold unloadPluginsInOrder
  rw [h1]

def wRecLiveA : PluginRecord := { wRecA with iplugin := some 0 }

def wRecLiveB : PluginRecord :=
  { wRecA with info := { PluginInfoStd.empty with name := "B" }, iplugin := some 1 }

def wRecLiveC : PluginRecord :=
  { wRecA with info := { PluginInfoStd.empty with name := "C" }, iplugin := some 2 }

def wStUnload : MgrState :=
  { pluginsMap := [("B", wRecLiveB), ("A", wRecLiveA), ("C", wRecLiveC)],
    locations := ["/p"], loadOrderList := ["A", "B"], mainPluginName := "" }

/-- Witness: the reverse-unload theorem at a three-record state whose
load order covers two of them. -/
theorem unloadPlugins_reverse_order_witness :
    ∃ tr2,
      unloadPluginsInOrder wStUnload =
        some ({ pluginsMap := [], locations := [],
                loadOrderList := wStUnload.loadOrderList,
                mainPluginName := wStUnload.mainPluginName },
          (wStUnload.loadOrderList.reverse.filter fun n =>
            instancePresent wStUnload.pluginsMap n) ++ tr2) ∧
      ∀ n ∈ tr2, n ∉ wStUnload.loadOrderList :=
  unloadPlugins_reverse_order wStUnload (by decide) (by decide)

/-- Witness: the unload frame theorem at the same kind of state. -/
theorem unloadPlugins_frame_witness :
    ∃ tr, unloadPluginsInOrder wStUnload =
      some ({ pluginsMap := [], locations := [],
              loadOrderList := wStUnload.loadOrderList,
              mainPluginName := wStUnload.mainPluginName }, tr) :=
  unloadPlugins_frame wStUnload (by decide) (by decide)

/-! ## Claim C1: the stored load order respects the dependency graph -/

/-- Erase the tri-state flag and the graph id of a record: loadPlugins
changes nothing else up to the storage of the load order. -/
def scrubFG (r : PluginRecord) : PluginRecord :=
  { r with dependenciesExists := TriBool.indet, graphId := -1 }

/-- The two registries agree on everything but flags and graph ids. -/
def sameButFG (reg reg2 : Registry) : Prop :=
  reg2.map (fun e => (e.1, scrubFG e.2)) = reg.map (fun e => (e.1, scrubFG e.2))

theorem sameButFG_refl (reg : Registry) : sameButFG reg reg := rfl

theorem sameButFG_trans {a b c : Registry} (h1 : sameButFG a b) (h2 : sameButFG b c) :
    sameButFG a c :=
  h2.trans h1

theorem scrubFG_flag (r : PluginRecord) (tb : TriBool) :
    scrubFG { r with dependenciesExists := tb } = scrubFG r := by
  cases r; rfl

theorem scrubFG_gid (r : PluginRecord) (g : Int) :
    scrubFG { r with graphId := g } = scrubFG r := by
  cases r; rfl

theorem scrubFG_of_scrubFlag {r r2 : PluginRecord} (h : scrubFlag r2 = scrubFlag r) :
    scrubFG r2 = scrubFG r := by
  have := congrArg (fun x : PluginRecord => { x with graphId := (-1 : Int) }) h
  cases r; cases r2
  simpa [scrubFlag, scrubFG] using this

theorem sameButFG_of_flagOnly {reg reg2 : Registry} (h : flagOnlyChange reg reg2) :
    sameButFG reg reg2 := by
  unfold sameButFG
  have h2 := congrArg
    (List.map (fun p : String × PluginRecord => (p.1, { p.2 with graphId := (-1 : Int) }))) h
  rw [List.map_map, List.map_map] at h2
  have hfun : ((fun p : String × PluginRecord => (p.1, { p.2 with graphId := (-1 : Int) })) ∘
      (fun e : String × PluginRecord => (e.1, scrubFlag e.2))) =
      (fun e : String × PluginRecord => (e.1, scrubFG e.2)) := by
    funext e
    obtain ⟨k, r⟩ := e
    cases r
    rfl
  rw [hfun] at h2
  exact h2

theorem sameButFG_mapAt_gid (reg : Registry) (key : String) (g : Int) :
    sameButFG reg (mapAt reg key (fun r => { r with graphId := g })) := by
  unfold sameButFG mapAt
  rw [List.map_map]
  refine List.map_congr_left (fun e _ => ?_)
  by_cases he : e.1 = key <;> simp [Function.comp, he, scrubFG_gid]

/-- Lookup respects a map-level scrub equation. -/
theorem scrub_lookup (f : PluginRecord → PluginRecord) {reg reg2 : Registry}
    (h : reg2.map (fun e => (e.1, f e.2)) = reg.map (fun e => (e.1, f e.2))) (k : String) :
    (lookupReg reg2 k).map f = (lookupReg reg k).map f := by
  induction reg generalizing reg2 with
  | nil =>
    cases reg2 with
    | nil => rfl
    | cons e2 rest2 => exact absurd h (by simp)
  | cons e rest ih =>
    obtain ⟨ka, ra⟩ := e
    cases reg2 with
    | nil => exact absurd h (by simp)
    | cons e2 rest2 =>
      obtain ⟨kb, rb⟩ := e2
      simp only [List.map_cons, List.cons.injEq, Prod.mk.injEq] at h
      obtain ⟨⟨hkey, hscrub⟩, htail⟩ := h
      by_cases hk : ka = k
      · have hk2 : kb = k := hkey.trans hk
        simp [lookupReg, hk, hk2, hscrub]
      · have hk2 : ¬kb = k := fun he => hk ((hkey.symm.trans he))
        simp only [lookupReg, hk, hk2, if_false]
        exact ih htail

theorem sameButFG_keys {reg reg2 : Registry} (h : sameButFG reg reg2) :
    reg2.map Prod.fst = reg.map Prod.fst := by
  have h2 := congrArg (List.map (Prod.fst : String × PluginRecord → String)) h
  rw [List.map_map, List.map_map] at h2
  exact h2

theorem sameButFG_lookup {reg reg2 : Registry} (h : sameButFG reg reg2) (k : String) :
    (lookupReg reg2 k).map scrubFG = (lookupReg reg k).map scrubFG :=
  scrub_lookup scrubFG h k

theorem scrubFG_info {r r2 : PluginRecord} (h : scrubFG r2 = scrubFG r) :
    r2.info = r.info := by
  have := congrArg PluginRecord.info h
  simpa [scrubFG] using this

theorem scrubFlag_graphId {r r2 : PluginRecord} (h : scrubFlag r2 = scrubFlag r) :
    r2.graphId = r.graphId := by
  have := congrArg PluginRecord.graphId h
  simpa [scrubFlag] using this

theorem scrubFlag_info {r r2 : PluginRecord} (h : scrubFlag r2 = scrubFlag r) :
    r2.info = r.info := by
  have := congrArg PluginRecord.info h
  simpa [scrubFlag] using this

/-- Transport a lookup across a flag-only change. -/
theorem flagOnly_lookup_some {reg reg2 : Registry} (h : flagOnlyChange reg reg2)
    {k : String} {rec : PluginRecord} (hl : lookupReg reg k = some rec) :
    ∃ rec2, lookupReg reg2 k = some rec2 ∧ scrubFlag rec2 = scrubFlag rec := by
  have := flagOnly_lookup h k
  rw [hl] at this
  cases hl2 : lookupReg reg2 k with
  | none => rw [hl2] at this; cases this
  | some rec2 =>
    rw [hl2] at this
    exact ⟨rec2, rfl, Option.some.inj this⟩

/-- Transport a lookup backwards across a flag-only change. -/
theorem flagOnly_lookup_some_rev {reg reg2 : Registry} (h : flagOnlyChange reg reg2)
    {k : String} {rec2 : PluginRecord} (hl : lookupReg reg2 k = some rec2) :
    ∃ rec, lookupReg reg k = some rec ∧ scrubFlag rec2 = scrubFlag rec := by
  have := flagOnly_lookup h k
  rw [hl] at this
  cases hl2 : lookupReg reg k with
  | none => rw [hl2] at this; cases this
  | some rec =>
    rw [hl2] at this
    exact ⟨rec, rfl, Option.some.inj this⟩

theorem sameButFG_lookup_some_rev {reg reg2 : Registry} (h : sameButFG reg reg2)
    {k : String} {rec2 : PluginRecord} (hl : lookupReg reg2 k = some rec2) :
    ∃ rec, lookupReg reg k = some rec ∧ scrubFG rec2 = scrubFG rec := by
  have := sameButFG_lookup h k
  rw [hl] at this
  cases hl2 : lookupReg reg k with
  | none => rw [hl2] at this; cases this
  | some rec =>
    rw [hl2] at this
    exact ⟨rec, rfl, Option.some.inj this⟩

theorem fillParents_mem (reg : Registry) : ∀ (ds : List DependencyS) (ps : List Int),
    fillParents reg ds = some ps → ∀ d ∈ ds, ∃ drec,
      lookupReg reg d.name = some drec ∧ drec.graphId ∈ ps := by
  intro ds
  induction ds with
  | nil => intro ps _ d hd; cases hd
  | cons d0 rest ih =>
    intro ps h d hd
    simp only [fillParents] at h
    cases hl : lookupReg reg d0.name with
    | none => rw [hl] at h; cases h
    | some drec0 =>
      rw [hl] at h
      cases hrest : fillParents reg rest with
      | none => rw [hrest] at h; cases h
      | some ps0 =>
        rw [hrest] at h
        simp only [Option.map_some] at h
        cases h
        rcases List.mem_cons.mp hd with hd | hd
        · subst hd
          exact ⟨drec0, hl, List.mem_cons_self _ _⟩
        · obtain ⟨drec, hdl, hdm⟩ := ih ps0 hrest d hd
          exact ⟨drec, hdl, List.mem_cons_of_mem _ hdm⟩

theorem loadPhase1_spec (fuel : Nat) (ttc : Bool) :
    ∀ (ks : List String) (reg : Registry) (nodes : List GNode) (reg2 : Registry)
      (nodes2 : List GNode),
      loadPhase1 fuel ttc reg ks nodes = some (reg2, nodes2, none) →
      ks.Nodup →
      (∀ nm ∈ nodes.map GNode.name, nm ∉ ks) →
      (nodes.map GNode.name).Nodup →
      (∀ j (hj : j < nodes.length), ∃ rec,
        lookupReg reg ((nodes.get ⟨j, hj⟩).name) = some rec ∧
        rec.graphId = Int.ofNat j ∧ (nodes.get ⟨j, hj⟩).parentNodes = []) →
      (∀ k rec, lookupReg reg k = some rec → k ∉ ks → rec.graphId ≠ -1 →
        ∃ j, ∃ hj : j < nodes.length, (nodes.get ⟨j, hj⟩).name = k ∧
          rec.graphId = Int.ofNat j) →
      sameButFG reg reg2 ∧
      (nodes2.map GNode.name).Nodup ∧
      (∀ j (hj : j < nodes2.length), ∃ rec,
        lookupReg reg2 ((nodes2.get ⟨j, hj⟩).name) = some rec ∧
        rec.graphId = Int.ofNat j ∧ (nodes2.get ⟨j, hj⟩).parentNodes = []) ∧
      (∀ k rec, lookupReg reg2 k = some rec → rec.graphId ≠ -1 →
        ∃ j, ∃ hj : j < nodes2.length, (nodes2.get ⟨j, hj⟩).name = k ∧
          rec.graphId = Int.ofNat j) := by
  intro ks
  induction ks with
  | nil =>
    intro reg nodes reg2 nodes2 h _ _ hnames hA hE
    simp only [loadPhase1] at h
    cases h
    exact ⟨sameButFG_refl reg, hnames, hA,
      fun k rec hl hg => hE k rec hl (by simp) hg⟩
  | cons k ks ih =>
    intro reg nodes reg2 nodes2 h hnd hdisj hnames hA hE
    obtain ⟨hkks, hndks⟩ := List.nodup_cons.mp hnd
    have hknotin : k ∉ nodes.map GNode.name :=
      fun hc => hdisj k hc (List.mem_cons_self k ks)
    simp only [loadPhase1] at h
    split at h
    · cases h
    · rename_i reg1 rc hcd
      have hflag : flagOnlyChange (mapAt reg k (fun r => { r with graphId := -1 })) reg1 :=
        checkDependencies_flagOnly fuel _ k (reg1, rc) hcd
      have hsame01 : sameButFG reg reg1 :=
        sameButFG_trans (sameButFG_mapAt_gid reg k (-1)) (sameButFG_of_flagOnly hflag)
      have hlk0ne : ∀ k2, k2 ≠ k →
          lookupReg (mapAt reg k (fun r => { r with graphId := -1 })) k2 =
            lookupReg reg k2 := by
        intro k2 hne
        rw [lookupReg_mapAt, if_neg hne]
      -- lookups of names other than k transfer from reg to reg1 keeping graphId
      have htransfer : ∀ k2 rec0, k2 ≠ k → lookupReg reg k2 = some rec0 →
          ∃ rec1x, lookupReg reg1 k2 = some rec1x ∧
            rec1x.graphId = rec0.graphId ∧ rec1x.info = rec0.info := by
        intro k2 rec0 hne hl
        have hl0 : lookupReg (mapAt reg k (fun r => { r with graphId := -1 })) k2 =
            some rec0 := by rw [hlk0ne k2 hne]; exact hl
        obtain ⟨rec1x, hl1, hscr⟩ := flagOnly_lookup_some hflag hl0
        exact ⟨rec1x, hl1, scrubFlag_graphId hscr, scrubFlag_info hscr⟩
      have htransfer_rev : ∀ k2 rec1x, k2 ≠ k → lookupReg reg1 k2 = some rec1x →
          ∃ rec0, lookupReg reg k2 = some rec0 ∧
            rec1x.graphId = rec0.graphId ∧ rec1x.info = rec0.info := by
        intro k2 rec1x hne hl
        obtain ⟨rec0, hl0, hscr⟩ := flagOnly_lookup_some_rev hflag hl
        rw [hlk0ne k2 hne] at hl0
        exact ⟨rec0, hl0, scrubFlag_graphId hscr, scrubFlag_info hscr⟩
      by_cases habort : (!ttc && !rc.isSuccess) = true
      · rw [if_pos habort] at h
        exact absurd h (by simp)
      · rw [if_neg habort] at h
        split at h
        · cases h
        · rename_i rec hlk
          by_cases hyes : rec.dependenciesExists = TriBool.yes
          · rw [if_pos hyes] at h
            have hdisj2 : ∀ nm ∈ (nodes ++ [GNode.mk k []]).map GNode.name, nm ∉ ks := by
              intro nm hnm
              rw [List.map_append, List.mem_append] at hnm
              rcases hnm with hnm | hnm
              · exact fun hc => hdisj nm hnm (List.mem_cons_of_mem k hc)
              · simp at hnm
                subst hnm
                exact hkks
            have hnames2 : ((nodes ++ [GNode.mk k []]).map GNode.name).Nodup := by
              rw [List.map_append, List.nodup_append]
              refine ⟨hnames, by simp, ?_⟩
              intro a ha hb
              simp at hb
              subst hb
              exact hknotin ha
            have hA2 : ∀ j (hj : j < (nodes ++ [GNode.mk k []]).length), ∃ recx,
                lookupReg (mapAt reg1 k (fun r => { r with graphId := Int.ofNat nodes.length }))
                  (((nodes ++ [GNode.mk k []]).get ⟨j, hj⟩).name) = some recx ∧
                recx.graphId = Int.ofNat j ∧
                ((nodes ++ [GNode.mk k []]).get ⟨j, hj⟩).parentNodes = [] := by
              intro j hj
              rw [List.length_append, List.length_singleton] at hj
              by_cases hjl : j < nodes.length
              · have hget : (nodes ++ [GNode.mk k []]).get ⟨j, by simpa using hj⟩ =
                    nodes.get ⟨j, hjl⟩ := List.get_append j hjl
                rw [hget]
                obtain ⟨rec0, hl0, hg0, hp0⟩ := hA j hjl
                have hnmem : (nodes.get ⟨j, hjl⟩).name ∈ nodes.map GNode.name :=
                  List.mem_map_of_mem GNode.name (List.get_mem nodes j hjl)
                have hne : (nodes.get ⟨j, hjl⟩).name ≠ k := fun he => hknotin (he ▸ hnmem)
                obtain ⟨rec1x, hl1, hg1, _⟩ := htransfer _ rec0 hne hl0
                refine ⟨rec1x, ?_, by rw [hg1, hg0], hp0⟩
                rw [lookupReg_mapAt, if_neg hne]
                exact hl1
              · have hjeq : j = nodes.length := by omega
                subst hjeq
                have hget : (nodes ++ [GNode.mk k []]).get ⟨nodes.length, by simpa using hj⟩ =
                    (GNode.mk k []) := by
                  rw [List.get_eq_getElem]
                  exact List.getElem_concat_length nodes _ _ rfl _
                rw [hget]
                refine ⟨{ rec with graphId := Int.ofNat nodes.length }, ?_, rfl, rfl⟩
                rw [lookupReg_mapAt, if_pos rfl, hlk]
                rfl
            have hE2 : ∀ k2 rec2, lookupReg
                  (mapAt reg1 k (fun r => { r with graphId := Int.ofNat nodes.length })) k2 =
                  some rec2 → k2 ∉ ks → rec2.graphId ≠ -1 →
                ∃ j, ∃ hj : j < (nodes ++ [GNode.mk k []]).length,
                  ((nodes ++ [GNode.mk k []]).get ⟨j, hj⟩).name = k2 ∧
                  rec2.graphId = Int.ofNat j := by
              intro k2 rec2 hl2 hk2ks hg2
              by_cases hk2 : k2 = k
              · subst hk2
                rw [lookupReg_mapAt, if_pos rfl, hlk] at hl2
                have hrec2 : rec2 = { rec with graphId := Int.ofNat nodes.length } :=
                  (Option.some.inj hl2).symm
                refine ⟨nodes.length, by simp, ?_, by rw [hrec2]⟩
                rw [List.get_eq_getElem]
                rw [List.getElem_concat_length nodes _ _ rfl]
              · rw [lookupReg_mapAt, if_neg hk2] at hl2
                obtain ⟨rec0, hl0, hg0, _⟩ := htransfer_rev k2 rec2 hk2 hl2
                have hk2cons : k2 ∉ k :: ks := by
                  intro hc
                  rcases List.mem_cons.mp hc with hc | hc
                  · exact hk2 hc
                  · exact hk2ks hc
                obtain ⟨j, hj, hname, hgid⟩ :=
                  hE k2 rec0 hl0 hk2cons (fun hc => hg2 (hg0.trans hc))
                refine ⟨j, by rw [List.length_append, List.length_singleton]; omega, ?_, ?_⟩
                · rw [List.get_append j hj]
                  exact hname
                · rw [hg0, hgid]
            obtain ⟨hsame3, hnodup3, hA3, hE3⟩ :=
              ih _ (nodes ++ [GNode.mk k []]) reg2 nodes2 h hndks hdisj2 hnames2 hA2 hE2
            exact ⟨sameButFG_trans hsame01
              (sameButFG_trans (sameButFG_mapAt_gid reg1 k (Int.ofNat nodes.length)) hsame3),
              hnodup3, hA3, hE3⟩
          · rw [if_neg hyes] at h
            have hdisj2 : ∀ nm ∈ nodes.map GNode.name, nm ∉ ks :=
              fun nm hnm hc => hdisj nm hnm (List.mem_cons_of_mem k hc)
            have hA2 : ∀ j (hj : j < nodes.length), ∃ recx,
                lookupReg reg1 ((nodes.get ⟨j, hj⟩).name) = some recx ∧
                recx.graphId = Int.ofNat j ∧ (nodes.get ⟨j, hj⟩).parentNodes = [] := by
              intro j hj
              obtain ⟨rec0, hl0, hg0, hp0⟩ := hA j hj
              have hnmem : (nodes.get ⟨j, hj⟩).name ∈ nodes.map GNode.name :=
                List.mem_map_of_mem GNode.name (List.get_mem nodes j hj)
              have hne : (nodes.get ⟨j, hj⟩).name ≠ k := fun he => hknotin (he ▸ hnmem)
              obtain ⟨rec1x, hl1, hg1, _⟩ := htransfer _ rec0 hne hl0
              exact ⟨rec1x, hl1, by rw [hg1, hg0], hp0⟩
            have hE2 : ∀ k2 rec2, lookupReg reg1 k2 = some rec2 → k2 ∉ ks →
                rec2.graphId ≠ -1 →
                ∃ j, ∃ hj : j < nodes.length, (nodes.get ⟨j, hj⟩).name = k2 ∧
                  rec2.graphId = Int.ofNat j := by
              intro k2 rec2 hl2 hk2ks hg2
              by_cases hk2 : k2 = k
              · subst hk2
                have hrec2 : rec2 = rec := by
                  rw [hlk] at hl2
                  exact (Option.some.inj hl2).symm
                cases hl00 : lookupReg reg k2 with
                | none =>
                  have h00 : lookupReg (mapAt reg k2
                      (fun r => { r with graphId := -1 })) k2 = none := by
                    rw [lookupReg_mapAt, if_pos rfl, hl00]
                    rfl
                  obtain ⟨rec0, hl0, _⟩ := flagOnly_lookup_some_rev hflag hl2
                  rw [h00] at hl0
                  cases hl0
                | some r0 =>
                  have h00 : lookupReg (mapAt reg k2
                      (fun r => { r with graphId := -1 })) k2 =
                      some { r0 with graphId := -1 } := by
                    rw [lookupReg_mapAt, if_pos rfl, hl00]
                    rfl
                  obtain ⟨rec0, hl0, hscr⟩ := flagOnly_lookup_some_rev hflag hl2
                  rw [h00] at hl0
                  have hr0 : { r0 with graphId := (-1 : Int) } = rec0 := Option.some.inj hl0
                  have : rec2.graphId = -1 := by
                    rw [scrubFlag_graphId hscr, ← hr0]
                  exact absurd this hg2
              · obtain ⟨rec0, hl0, hg0, _⟩ := htransfer_rev k2 rec2 hk2 hl2
                have hk2cons : k2 ∉ k :: ks := by
                  intro hc
                  rcases List.mem_cons.mp hc with hc | hc
                  · exact hk2 hc
                  · exact hk2ks hc
                obtain ⟨j, hj, hname, hgid⟩ :=
                  hE k2 rec0 hl0 hk2cons (fun hc => hg2 (hg0.trans hc))
                exact ⟨j, hj, hname, by rw [hg0, hgid]⟩
            obtain ⟨hsame3, hnodup3, hA3, hE3⟩ :=
              ih reg1 nodes reg2 nodes2 h hndks hdisj2 hnames hA2 hE2
            exact ⟨sameButFG_trans hsame01 hsame3, hnodup3, hA3, hE3⟩

theorem loadPhase2_spec (reg : Registry) :
    ∀ (ks : List String) (nodes nodes2 : List GNode),
      loadPhase2 reg ks nodes = some nodes2 →
      ks.Nodup →
      (nodes.map GNode.name).Nodup →
      (∀ j (hj : j < nodes.length), ∃ rec,
        lookupReg reg ((nodes.get ⟨j, hj⟩).name) = some rec ∧ rec.graphId = Int.ofNat j) →
      (∀ k rec, lookupReg reg k = some rec → rec.graphId ≠ -1 →
        ∃ j, ∃ hj : j < nodes.length, (nodes.get ⟨j, hj⟩).name = k ∧
          rec.graphId = Int.ofNat j) →
      (∀ j (hj : j < nodes.length),
        ((nodes.get ⟨j, hj⟩).name ∈ ks ∧ (nodes.get ⟨j, hj⟩).parentNodes = []) ∨
        ((nodes.get ⟨j, hj⟩).name ∉ ks ∧ ∃ rec ps,
          lookupReg reg ((nodes.get ⟨j, hj⟩).name) = some rec ∧
          fillParents reg rec.info.dependencies = some ps ∧
          (nodes.get ⟨j, hj⟩).parentNodes = ps)) →
      nodes2.length = nodes.length ∧
      (∀ j (hj : j < nodes2.length) (hj2 : j < nodes.length),
        (nodes2.get ⟨j, hj⟩).name = (nodes.get ⟨j, hj2⟩).name) ∧
      (∀ j (hj : j < nodes2.length), ∃ rec ps,
        lookupReg reg ((nodes2.get ⟨j, hj⟩).name) = some rec ∧
        fillParents reg rec.info.dependencies = some ps ∧
        (nodes2.get ⟨j, hj⟩).parentNodes = ps) := by
  intro ks
  induction ks with
  | nil =>
    intro nodes nodes2 h _ _ _ _ hpart
    simp only [loadPhase2] at h
    cases h
    refine ⟨rfl, fun j hj hj2 => rfl, fun j hj => ?_⟩
    rcases hpart j hj with ⟨hmem, _⟩ | ⟨_, rec, ps, hl, hf, hp⟩
    · exact absurd hmem (List.not_mem_nil _)
    · exact ⟨rec, ps, hl, hf, hp⟩
  | cons k ks ih =>
    intro nodes nodes2 h hnd hnames hA hE hpart
    obtain ⟨hkks, hndks⟩ := List.nodup_cons.mp hnd
    simp only [loadPhase2] at h
    split at h
    · cases h
    · rename_i rec hlk
      by_cases hgid : rec.graphId = -1
      · rw [if_pos hgid] at h
        have hpart2 : ∀ j (hj : j < nodes.length),
            ((nodes.get ⟨j, hj⟩).name ∈ ks ∧ (nodes.get ⟨j, hj⟩).parentNodes = []) ∨
            ((nodes.get ⟨j, hj⟩).name ∉ ks ∧ ∃ recx ps,
              lookupReg reg ((nodes.get ⟨j, hj⟩).name) = some recx ∧
              fillParents reg recx.info.dependencies = some ps ∧
              (nodes.get ⟨j, hj⟩).parentNodes = ps) := by
          intro j hj
          rcases hpart j hj with ⟨hmem, hp⟩ | ⟨hnmem, hrest⟩
          · rcases List.mem_cons.mp hmem with he | he
            · exfalso
              obtain ⟨recj, hlj, hgj⟩ := hA j hj
              rw [he, hlk] at hlj
              have hre : rec = recj := Option.some.inj hlj
              rw [← hre] at hgj
              rw [hgj] at hgid
              cases hgid
            · exact Or.inl ⟨he, hp⟩
          · exact Or.inr ⟨fun hc => hnmem (List.mem_cons_of_mem k hc), hrest⟩
        exact ih nodes nodes2 h hndks hnames hA hE hpart2
      · rw [if_neg hgid] at h
        obtain ⟨j0, hj0, hname0, hgid0⟩ := hE k rec hlk hgid
        have htn : rec.graphId.toNat = j0 := by rw [hgid0]; rfl
        have hcond : 0 ≤ rec.graphId ∧ rec.graphId.toNat < nodes.length := by
          constructor
          · rw [hgid0]
            exact Int.ofNat_nonneg j0
          · rw [htn]
            exact hj0
        rw [if_pos hcond] at h
        split at h
        · cases h
        · rename_i ps hfill
          split at h
          · cases h
          · rename_i node hgetn
            rw [htn] at hgetn h
            have hnode : node = nodes.get ⟨j0, hj0⟩ := by
              rw [List.get?_eq_get hj0] at hgetn
              exact (Option.some.inj hgetn).symm
            have hparents : node.parentNodes = [] := by
              rcases hpart j0 hj0 with ⟨_, hp⟩ | ⟨hnm, _⟩
              · rw [hnode]; exact hp
              · exact absurd (hname0 ▸ List.mem_cons_self k ks) hnm
            have hlen' : (nodes.set j0 { node with parentNodes := node.parentNodes ++ ps }).length
                = nodes.length := List.length_set nodes _ _
            have hnameeq : ∀ j (hj' : j <
                  (nodes.set j0 { node with parentNodes := node.parentNodes ++ ps }).length)
                (hj2 : j < nodes.length),
                ((nodes.set j0 { node with parentNodes := node.parentNodes ++ ps }).get
                  ⟨j, hj'⟩).name = (nodes.get ⟨j, hj2⟩).name := by
              intro j hj' hj2
              by_cases hjj : j0 = j
              · subst hjj
                rw [List.get_set_eq hj']
                rw [hnode]
              · rw [List.get_set_ne hjj hj']
            have hmap' : (nodes.set j0
                { node with parentNodes := node.parentNodes ++ ps }).map GNode.name =
                nodes.map GNode.name := by
              refine List.ext_get (by simp [hlen']) (fun j h1 h2 => ?_)
              rw [List.get_map, List.get_map]
              exact hnameeq j (by simpa using h1) (by simpa using h2)
            have hA2 : ∀ j (hj' : j <
                  (nodes.set j0 { node with parentNodes := node.parentNodes ++ ps }).length),
                ∃ recx, lookupReg reg
                  (((nodes.set j0 { node with parentNodes := node.parentNodes ++ ps }).get
                    ⟨j, hj'⟩).name) = some recx ∧ recx.graphId = Int.ofNat j := by
              intro j hj'
              have hj2 : j < nodes.length := by rw [← hlen']; exact hj'
              rw [hnameeq j hj' hj2]
              exact hA j hj2
            have hE2 : ∀ k2 rec2, lookupReg reg k2 = some rec2 → rec2.graphId ≠ -1 →
                ∃ j, ∃ hj' : j <
                  (nodes.set j0 { node with parentNodes := node.parentNodes ++ ps }).length,
                  (((nodes.set j0 { node with parentNodes := node.parentNodes ++ ps }).get
                    ⟨j, hj'⟩).name) = k2 ∧ rec2.graphId = Int.ofNat j := by
              intro k2 rec2 hl2 hg2
              obtain ⟨j, hj, hn, hg⟩ := hE k2 rec2 hl2 hg2
              refine ⟨j, by rw [hlen']; exact hj, ?_, hg⟩
              rw [hnameeq j (by rw [hlen']; exact hj) hj]
              exact hn
            have hpart2 : ∀ j (hj' : j <
                  (nodes.set j0 { node with parentNodes := node.parentNodes ++ ps }).length),
                (((nodes.set j0 { node with parentNodes := node.parentNodes ++ ps }).get
                    ⟨j, hj'⟩).name ∈ ks ∧
                  ((nodes.set j0 { node with parentNodes := node.parentNodes ++ ps }).get
                    ⟨j, hj'⟩).parentNodes = []) ∨
                (((nodes.set j0 { node with parentNodes := node.parentNodes ++ ps }).get
                    ⟨j, hj'⟩).name ∉ ks ∧ ∃ recx psx,
                  lookupReg reg (((nodes.set j0
                    { node with parentNodes := node.parentNodes ++ ps }).get
                    ⟨j, hj'⟩).name) = some recx ∧
                  fillParents reg recx.info.dependencies = some psx ∧
                  ((nodes.set j0 { node with parentNodes := node.parentNodes ++ ps }).get
                    ⟨j, hj'⟩).parentNodes = psx) := by
              intro j hj'
              have hj2 : j < nodes.length := by rw [← hlen']; exact hj'
              by_cases hjj : j0 = j
              · subst hjj
                rw [List.get_set_eq hj']
                right
                refine ⟨?_, rec, ps, ?_, hfill, ?_⟩
                · show node.name ∉ ks
                  rw [hnode, hname0]
                  exact hkks
                · show lookupReg reg node.name = some rec
                  rw [hnode, hname0]
                  exact hlk
                · show node.parentNodes ++ ps = ps
                  rw [hparents]
                  rfl
              · rw [List.get_set_ne hjj hj']
                rcases hpart j hj2 with ⟨hmem, hp⟩ | ⟨hnmem, hrest⟩
                · rcases List.mem_cons.mp hmem with he | he
                  · exfalso
                    have hj0ne : (⟨j0, hj0⟩ : Fin nodes.length) ≠ ⟨j, hj2⟩ := by
                      intro hc
                      exact hjj (congrArg Fin.val hc)
                    have : nodes.get ⟨j0, hj0⟩ ≠ nodes.get ⟨j, hj2⟩ → True := fun _ => trivial
                    have hinj := List.Nodup.get_inj_iff
                      (l := nodes.map GNode.name) hnames
                      (i := ⟨j0, by simpa using hj0⟩) (j := ⟨j, by simpa using hj2⟩)
                    rw [List.get_map, List.get_map] at hinj
                    have hne2 := hname0.trans he.symm
                    have := hinj.mp hne2
                    have : j0 = j := congrArg Fin.val this
                    exact hjj this
                  · exact Or.inl ⟨he, hp⟩
                · exact Or.inr ⟨fun hc => hnmem (List.mem_cons_of_mem k hc), hrest⟩
            obtain ⟨hlen2, hnm2, hfin⟩ := ih _ nodes2 h hndks (hmap' ▸ hnames) hA2 hE2 hpart2
            refine ⟨hlen2.trans hlen', ?_, hfin⟩
            intro j hj hj2
            have hjmid : j < (nodes.set j0
                { node with parentNodes := node.parentNodes ++ ps }).length := by
              rw [← hlen2]; exact hj
            rw [hnm2 j hj hjmid]
            exact hnameeq j hjmid hj2

theorem nameAt_get (nodes : List GNode) (j : Nat) (hj : j < nodes.length) :
    nameAt nodes j = (nodes.get ⟨j, hj⟩).name := by
  unfold nameAt
  rw [List.get?_eq_get hj]
  rfl

theorem parentsAt_get (nodes : List GNode) (j : Nat) (hj : j < nodes.length) :
    parentsAt nodes j = (nodes.get ⟨j, hj⟩).parentNodes := by
  unfold parentsAt
  rw [List.get?_eq_get hj]
  rfl

/-- The order stored by a successful sort pass of loadPlugins respects
the declared dependencies: each dependency of an ordered plugin sits
strictly earlier in the order. -/
theorem loadPluginsOrder_spec (fuel : Nat) (ttc : Bool) (st st1 : MgrState) (rc : RC)
    (hnd : keysNodup st.pluginsMap)
    (h : loadPluginsOrder fuel ttc st = some (st1, rc, true)) :
    ∀ p ∈ st1.loadOrderList, ∃ rec, lookupReg st.pluginsMap p = some rec ∧
      ∀ d ∈ rec.info.dependencies, d.name ∈ st1.loadOrderList ∧
        st1.loadOrderList.indexOf d.name < st1.loadOrderList.indexOf p := by
  simp only [loadPluginsOrder] at h
  split at h
  · cases h
  · exact absurd h (by simp)
  · rename_i reg1 nodes hph1
    split at h
    · cases h
    · rename_i nodes2 hph2
      split at h
      · cases h
      · rename_i ord err hsort
        by_cases herr : err = true
        · rw [if_pos herr] at h
          exact absurd h (by simp)
        · rw [if_neg herr] at h
          have herr2 : err = false := by
            cases err
            · rfl
            · exact absurd rfl herr
          rw [herr2] at hsort
          have h' := Option.some.inj h
          have hst1 : ({ st with pluginsMap := reg1, loadOrderList := ord } : MgrState)
              = st1 := congrArg Prod.fst h'
          have hlo : st1.loadOrderList = ord := by rw [← hst1]
          rw [hlo]
          -- phase-1 invariant from the empty start
          obtain ⟨hsame, hnames1, hA1, hE1⟩ :=
            loadPhase1_spec fuel ttc (st.pluginsMap.map Prod.fst)
              st.pluginsMap [] reg1 nodes hph1 hnd
              (by intro nm hnm; cases hnm)
              List.nodup_nil
              (by intro j hj; exact absurd hj (by simp))
              (by
                intro k recx hl hkn _
                have hnone := (lookupReg_eq_none_iff st.pluginsMap k).mpr hkn
                rw [hnone] at hl
                cases hl)
          -- phase-2 invariant
          obtain ⟨hlen2, hname2, hfin⟩ :=
            loadPhase2_spec reg1 (st.pluginsMap.map Prod.fst) nodes nodes2 hph2
              hnd hnames1
              (by
                intro j hj
                obtain ⟨recx, h1, h2, _⟩ := hA1 j hj
                exact ⟨recx, h1, h2⟩)
              hE1
              (by
                intro j hj
                obtain ⟨recx, h1, h2, h3⟩ := hA1 j hj
                refine Or.inl ⟨?_, h3⟩
                have hkeys : reg1.map Prod.fst = st.pluginsMap.map Prod.fst :=
                  sameButFG_keys hsame
                by_contra hnm
                have hnm2 : (nodes.get ⟨j, hj⟩).name ∉ reg1.map Prod.fst := by
                  rw [hkeys]
                  exact hnm
                have hnone := (lookupReg_eq_none_iff reg1 _).mpr hnm2
                rw [hnone] at h1
                cases h1)
          -- transfer the index facts to nodes2
          have hA2 : ∀ j (hj : j < nodes2.length), ∃ recx,
              lookupReg reg1 ((nodes2.get ⟨j, hj⟩).name) = some recx ∧
              recx.graphId = Int.ofNat j := by
            intro j hj
            have hj2 : j < nodes.length := by rw [← hlen2]; exact hj
            rw [hname2 j hj hj2]
            obtain ⟨recx, h1, h2, _⟩ := hA1 j hj2
            exact ⟨recx, h1, h2⟩
          have hE2 : ∀ k recx, lookupReg reg1 k = some recx → recx.graphId ≠ -1 →
              ∃ j, ∃ hj : j < nodes2.length, (nodes2.get ⟨j, hj⟩).name = k ∧
                recx.graphId = Int.ofNat j := by
            intro k recx hl hg
            obtain ⟨j, hj, hn, hgid⟩ := hE1 k recx hl hg
            have hj' : j < nodes2.length := by rw [hlen2]; exact hj
            refine ⟨j, hj', ?_, hgid⟩
            rw [hname2 j hj' hj]
            exact hn
          -- the successful sort
          obtain ⟨perm, hout, hpnd, hpbnd, hpall, hsor⟩ :=
            topologicalSort_success nodes2 (nodes2.length + 1) ord hsort
          intro p hp
          have hk1 : ord.indexOf p < ord.length := List.indexOf_lt_length.mpr hp
          have hpq : ord.get? (ord.indexOf p) = some p := by
            rw [List.get?_eq_get hk1, List.indexOf_get hk1]
          obtain ⟨k1, hk1e⟩ : ∃ k1, ord.indexOf p = k1 := ⟨_, rfl⟩
          rw [hk1e] at hk1 hpq
          rw [hk1e]
          have hostlen : ord.length = perm.length := by rw [hout, List.length_map]
          have hk1p : k1 < perm.length := by rw [← hostlen]; exact hk1
          have hjPmem : perm.get ⟨k1, hk1p⟩ ∈ perm := List.get_mem _ _ _
          have hjPlt : perm.get ⟨k1, hk1p⟩ < nodes2.length := hpbnd _ hjPmem
          rw [hout, List.get?_map, List.get?_eq_get hk1p, Option.map_some'] at hpq
          have hpname : nameAt nodes2 (perm.get ⟨k1, hk1p⟩) = p :=
            Option.some.inj hpq
          obtain ⟨rec1, ps, hl1, hfill, hpar⟩ :=
            hfin (perm.get ⟨k1, hk1p⟩) hjPlt
          have hrecname : (nodes2.get ⟨perm.get ⟨k1, hk1p⟩, hjPlt⟩).name = p := by
            rw [← nameAt_get nodes2 _ hjPlt]
            exact hpname
          rw [hrecname] at hl1
          obtain ⟨rec0, hl0, hscr⟩ := sameButFG_lookup_some_rev hsame hl1
          have hinfo : rec1.info = rec0.info := scrubFG_info hscr
          refine ⟨rec0, hl0, ?_⟩
          intro d hd
          have hd1 : d ∈ rec1.info.dependencies := by rw [hinfo]; exact hd
          obtain ⟨drec, hdl, hdm⟩ :=
            fillParents_mem reg1 rec1.info.dependencies ps hfill d hd1
          have hpsp : drec.graphId ∈ parentsAt nodes2 (perm.get ⟨k1, hk1p⟩) := by
            rw [parentsAt_get nodes2 _ hjPlt, hpar]
            exact hdm
          obtain ⟨jd, hgjd, hjdtake⟩ := hsor (k1) hk1p drec.graphId hpsp
          have hgne : drec.graphId ≠ -1 := by
            rw [hgjd]
            intro hc
            have h0 : (0 : Int) ≤ Int.ofNat jd := Int.ofNat_nonneg jd
            rw [hc] at h0
            exact absurd h0 (by decide)
          obtain ⟨j', hj', hn', hg'⟩ := hE2 d.name drec hdl hgne
          rw [hgjd] at hg'
          have hjeq : j' = jd := (Int.ofNat.inj hg').symm
          subst hjeq
          have hdn : nameAt nodes2 j' = d.name := by
            rw [nameAt_get nodes2 j' hj']
            exact hn'
          constructor
          · rw [hout]
            exact List.mem_map.mpr ⟨j', List.take_subset _ _ hjdtake, hdn⟩
          · have hmemtake : d.name ∈ ord.take (k1) := by
              rw [hout, ← List.map_take]
              exact List.mem_map.mpr ⟨j', hjdtake, hdn⟩
            exact indexOf_lt_of_mem_take ord (k1) hmemtake

/-- C1: after any loadPlugins call in which the topological sort
succeeds, every plugin of the stored load order has a record in the
original map, and each of its declared dependencies also appears in
the stored load order at a strictly smaller index. -/
theorem loadPlugins_order_respects_deps
    (fuel : Nat) (ttc : Bool) (st st1 st2 : MgrState) (rc1 rc : RC) (tr : List String)
    (hnd : keysNodup st.pluginsMap)
    (hord : loadPluginsOrder fuel ttc st = some (st1, rc1, true))
    (h : loadPlugins fuel ttc st = some (st2, rc, tr)) :
    ∀ p ∈ st2.loadOrderList, ∃ rec, lookupReg st.pluginsMap p = some rec ∧
      ∀ d ∈ rec.info.dependencies, d.name ∈ st2.loadOrderList ∧
        st2.loadOrderList.indexOf d.name < st2.loadOrderList.indexOf p := by
  have hmain := loadPluginsOrder_spec fuel ttc st st1 rc1 hnd hord
  simp only [loadPlugins, hord] at h
  have hlo : st2.loadOrderList = st1.loadOrderList := by
    split at h
    · cases h
    · rename_i reg2 tr2 hrun
      by_cases hmp : st1.mainPluginName = ""
      · rw [if_pos hmp] at h
        have h' := Option.some.inj h
        have hst : ({ st1 with pluginsMap := reg2 } : MgrState) = st2 :=
          congrArg Prod.fst h'
        rw [← hst]
      · rw [if_neg hmp] at h
        split at h
        · cases h
        · rename_i mrec hml
          by_cases hip : mrec.iplugin.isSome = true
          · rw [if_pos hip] at h
            have h' := Option.some.inj h
            have hst : ({ st1 with pluginsMap := reg2 } : MgrState) = st2 :=
              congrArg Prod.fst h'
            rw [← hst]
          · rw [if_neg hip] at h
            cases h
  rw [hlo]
  exact hmain

def wRecC1A : PluginRecord :=
  { path := "/a", libLoaded := true,
    info := { PluginInfoStd.empty with name := "A", version := "1.0.0" },
    dependenciesExists := TriBool.indet, graphId := -1, iplugin := none,
    isMainPlugin := false }

def wRecC1B : PluginRecord :=
  { path := "/b", libLoaded := true,
    info := { PluginInfoStd.empty with
              name := "B"
              version := "1.0.0"
              dependencies := [⟨"A", "1.0.0"⟩] },
    dependenciesExists := TriBool.indet, graphId := -1, iplugin := none,
    isMainPlugin := false }

def wStC1 : MgrState :=
  { pluginsMap := [("A", wRecC1A), ("B", wRecC1B)],
    locations := ["/p"], loadOrderList := [], mainPluginName := "" }

def wStC1out : MgrState :=
  { pluginsMap :=
      [("A", { wRecC1A with dependenciesExists := TriBool.yes, graphId := 0 }),
       ("B", { wRecC1B with dependenciesExists := TriBool.yes, graphId := 1 })],
    locations := ["/p"], loadOrderList := ["A", "B"], mainPluginName := "" }

def wStC1fin : MgrState :=
  { pluginsMap :=
      [("A", { wRecC1A with
               dependenciesExists := TriBool.yes
               graphId := 0
               iplugin := some 0 }),
       ("B", { wRecC1B with
               dependenciesExists := TriBool.yes
               graphId := 1
               iplugin := some 1 })],
    locations := ["/p"], loadOrderList := ["A", "B"], mainPluginName := "" }

/-- Witness: the load-order theorem at a two-plugin registry where B
depends on A. -/
theorem loadPlugins_order_respects_deps_witness :
    keysNodup wStC1.pluginsMap ∧
    (∀ p ∈ wStC1fin.loadOrderList, ∃ rec, lookupReg wStC1.pluginsMap p = some rec ∧
      ∀ d ∈ rec.info.dependencies, d.name ∈ wStC1fin.loadOrderList ∧
        wStC1fin.loadOrderList.indexOf d.name < wStC1fin.loadOrderList.indexOf p) :=
  ⟨by unfold keysNodup; decide, loadPlugins_order_respects_deps 4 false wStC1 wStC1out wStC1fin
    RC.success RC.success ["A", "B"] (by unfold keysNodup; decide) (by decide) (by decide)⟩
